import Mathlib

/-!
Shallow embedding of the DeskTok recommendation / feed-generation core.

Sources embedded here:
* `src/recommender.js` — hashing-based feature synthesis (`hashToSeed`,
  `mulberry32`, `tokenize`, `textVector`, `deterministicRandomVector`),
  minimal KMeans (`kmeans`), and the `Recommender` class
  (`buildIndex`, `recommend` with MMR and popularity fallback).
* `src/unnamed/part_001` — the Express server: the feed sampler
  `generatePostsRange`, the bounded recent-window (`recentQueue` /
  `recentSet`), persistence helpers (`saveRecent` / `loadPersistent`),
  and the `/api/track` handler.

Numeric conventions: JS 32-bit integer operations are modelled on `Nat`
with explicit reduction modulo `2 ^ 32`; JS floating point values that
the claims treat exactly (feature buckets, watch times, weights,
squared distances) are modelled as `ℚ`; quantities that require square
roots (vector norms, cosine similarity) are modelled in `ℝ`.
-/

namespace DeskTok

/-- Modulus for JS 32-bit unsigned arithmetic. -/
def two32 : Nat := 4294967296

/-- One step of the `mulberry32` generator from `src/recommender.js`
lines 14–21 (the identical copy lives in `src/unnamed/part_001` lines
157–164).  The closure state is the variable `a`; each call first adds
`0x6D2B79F5` mod `2^32` and then scrambles.  Returns the raw 32-bit
output `t` (the JS code divides it by `4294967296` to obtain a float in
`[0,1)`) together with the updated state. -/
def mulberryNext (a : Nat) : Nat × Nat :=
  let a2 := (a + 0x6D2B79F5) % two32
  let t0 := a2
  let t1 := (Nat.xor t0 (t0 / 2 ^ 15) * Nat.lor t0 1) % two32
  let t2 := Nat.xor t1 ((t1 + Nat.xor t1 (t1 / 2 ^ 7) * Nat.lor t1 61 % two32) % two32)
  (Nat.xor t2 (t2 / 2 ^ 14), a2)

/-- JS `Math.floor(rnd() * n)` where `rnd()` returned the raw 32-bit
value `r / 2^32`: exact as long as `r * n < 2^53`, which holds for every
use in the repository (`n` is a list length). -/
def floorScale (r n : Nat) : Nat := r * n / two32

/-- The value `rnd()` returns as an exact rational, `r / 2^32`. -/
def ratOfRaw (r : Nat) : ℚ := (r : ℚ) / (two32 : ℚ)

/-- Drawing `len` consecutive floats from a `mulberry32` stream seeded
at `seed`, as exact rationals. -/
def mulberryStream (seed : Nat) : Nat → List ℚ
  | 0 => []
  | n + 1 =>
    let p := mulberryNext seed
    ratOfRaw p.1 :: mulberryStream p.2 n

/-! ### MD5, for `hashToSeed`

`hashToSeed` in `src/recommender.js` lines 9–12 takes the MD5 digest of
the input string and reads its first four bytes as a little-endian
32-bit integer; that equals the final little-endian word `A` of the MD5
state.  The MD5 compression below is the reference algorithm. -/

/-- The 64 MD5 round constants `K`. -/
def md5K : List Nat :=
  [0xd76aa478, 0xe8c7b756, 0x242070db, 0xc1bdceee,
   0xf57c0faf, 0x4787c62a, 0xa8304613, 0xfd469501,
   0x698098d8, 0x8b44f7af, 0xffff5bb1, 0x895cd7be,
   0x6b901122, 0xfd987193, 0xa679438e, 0x49b40821,
   0xf61e2562, 0xc040b340, 0x265e5a51, 0xe9b6c7aa,
   0xd62f105d, 0x02441453, 0xd8a1e681, 0xe7d3fbc8,
   0x21e1cde6, 0xc33707d6, 0xf4d50d87, 0x455a14ed,
   0xa9e3e905, 0xfcefa3f8, 0x676f02d9, 0x8d2a4c8a,
   0xfffa3942, 0x8771f681, 0x6d9d6122, 0xfde5380c,
   0xa4beea44, 0x4bdecfa9, 0xf6bb4b60, 0xbebfbc70,
   0x289b7ec6, 0xeaa127fa, 0xd4ef3085, 0x04881d05,
   0xd9d4d039, 0xe6db99e5, 0x1fa27cf8, 0xc4ac5665,
   0xf4292244, 0x432aff97, 0xab9423a7, 0xfc93a039,
   0x655b59c3, 0x8f0ccc92, 0xffeff47d, 0x85845dd1,
   0x6fa87e4f, 0xfe2ce6e0, 0xa3014314, 0x4e0811a1,
   0xf7537e82, 0xbd3af235, 0x2ad7d2bb, 0xeb86d391]

/-- The 64 MD5 per-round left-rotation amounts. -/
def md5S : List Nat :=
  [7, 12, 17, 22, 7, 12, 17, 22, 7, 12, 17, 22, 7, 12, 17, 22,
   5, 9, 14, 20, 5, 9, 14, 20, 5, 9, 14, 20, 5, 9, 14, 20,
   4, 11, 16, 23, 4, 11, 16, 23, 4, 11, 16, 23, 4, 11, 16, 23,
   6, 10, 15, 21, 6, 10, 15, 21, 6, 10, 15, 21, 6, 10, 15, 21]

/-- 32-bit left rotation on `Nat` values below `2^32`. -/
def rotl32 (x n : Nat) : Nat := (x * 2 ^ n) % two32 + x / 2 ^ (32 - n)

/-- Bitwise complement within 32 bits. -/
def not32 (x : Nat) : Nat := Nat.xor x (two32 - 1)

/-- MD5 padding: append `0x80`, zero bytes to 56 mod 64, then the
64-bit little-endian bit length. -/
def md5Pad (msg : List Nat) : List Nat :=
  let len := msg.length
  let k := (64 + 56 - (len + 1) % 64) % 64
  let bitLen := (8 * len) % 2 ^ 64
  msg ++ [0x80] ++ List.replicate k 0 ++
    (List.range 8).map (fun j => bitLen / 2 ^ (8 * j) % 256)

/-- Read the sixteen little-endian 32-bit words of one 64-byte chunk. -/
def md5Words (chunk : List Nat) : List Nat :=
  (List.range 16).map (fun j =>
    chunk.getD (4 * j) 0 + chunk.getD (4 * j + 1) 0 * 256 +
      chunk.getD (4 * j + 2) 0 * 65536 + chunk.getD (4 * j + 3) 0 * 16777216)

/-- One of the 64 MD5 rounds applied to the working state `(A,B,C,D)`. -/
def md5Round (m : List Nat) (st : Nat × Nat × Nat × Nat) (i : Nat) :
    Nat × Nat × Nat × Nat :=
  let a := st.1
  let b := st.2.1
  let c := st.2.2.1
  let d := st.2.2.2
  let fg : Nat × Nat :=
    if i < 16 then (Nat.lor (Nat.land b c) (Nat.land (not32 b) d), i)
    else if i < 32 then
      (Nat.lor (Nat.land d b) (Nat.land (not32 d) c), (5 * i + 1) % 16)
    else if i < 48 then (Nat.xor (Nat.xor b c) d, (3 * i + 5) % 16)
    else (Nat.xor c (Nat.lor b (not32 d)), 7 * i % 16)
  let f := (fg.1 + a + md5K.getD i 0 + m.getD fg.2 0) % two32
  (d, (b + rotl32 f (md5S.getD i 0)) % two32, b, c)

/-- MD5 compression of one 64-byte chunk into the running digest. -/
def md5Chunk (st : Nat × Nat × Nat × Nat) (chunk : List Nat) :
    Nat × Nat × Nat × Nat :=
  let m := md5Words chunk
  let r := (List.range 64).foldl (md5Round m) st
  ((st.1 + r.1) % two32, (st.2.1 + r.2.1) % two32,
   (st.2.2.1 + r.2.2.1) % two32, (st.2.2.2 + r.2.2.2) % two32)

/-- Split a padded message into 64-byte chunks; the fuel is the message
length, which bounds the chunk count (each step consumes 64 bytes). -/
def md5ChunksAux : Nat → List Nat → List (List Nat)
  | 0, _ => []
  | _, [] => []
  | fuel + 1, a :: t => (a :: t).take 64 :: md5ChunksAux fuel (t.drop 63)

/-- Split a padded message into 64-byte chunks. -/
def md5Chunks (l : List Nat) : List (List Nat) := md5ChunksAux l.length l

/-- The UTF-8 encoding of one character, as `Nat` bytes. -/
def utf8Bytes (c : Char) : List Nat :=
  let n := c.toNat
  if n < 0x80 then [n]
  else if n < 0x800 then [0xC0 + n / 64, 0x80 + n % 64]
  else if n < 0x10000 then
    [0xE0 + n / 4096, 0x80 + n / 64 % 64, 0x80 + n % 64]
  else [0xF0 + n / 262144, 0x80 + n / 4096 % 64, 0x80 + n / 64 % 64,
    0x80 + n % 64]

/-- The UTF-8 bytes of a string, as `Nat`s (Node hashes strings with
UTF-8 encoding). -/
def strBytes (s : String) : List Nat := s.data.flatMap utf8Bytes

/-- The `hashToSeed` function of `src/recommender.js` lines 9–12:
`md5(s).readUInt32LE(0)`, i.e. the final `A` word of the MD5 state. -/
def hashToSeed (s : String) : Nat :=
  ((md5Chunks (md5Pad (strBytes s))).foldl md5Chunk
    (0x67452301, 0xefcdab89, 0x98badcfe, 0x10325476)).1

/-! ### Feature synthesis (`src/recommender.js` lines 23–49) -/

/-- Character class kept by `tokenize`: the regex replaces every
character outside `[a-z0-9\s]` by a space and then splits on runs of
whitespace, so (after `toLowerCase`) exactly the characters `a`–`z` and
`0`–`9` survive inside tokens. -/
def isTokenChar (c : Char) : Bool :=
  (Char.toLower c ≥ 'a' && Char.toLower c ≤ 'z') || (c ≥ '0' && c ≤ '9')

/-- Accumulate maximal runs of token characters (lowercased). -/
def tokenizeAux : List Char → List Char → List String
  | [], cur => if cur.isEmpty then [] else [String.mk cur.reverse]
  | c :: rest, cur =>
    if isTokenChar c then tokenizeAux rest (Char.toLower c :: cur)
    else if cur.isEmpty then tokenizeAux rest []
    else String.mk cur.reverse :: tokenizeAux rest []

/-- The `tokenize` function of `src/recommender.js` line 23–25:
lowercase, replace non-alphanumerics by spaces, split on whitespace and
drop the empty pieces — i.e. the maximal alphanumeric runs. -/
def tokenize (name : String) : List String := tokenizeAux name.toList []

/-- Increment position `idx` of a bucket vector, as the JS statement
`vec[idx] += 1` does. -/
def bumpAt (vec : List ℚ) (idx : Nat) : List ℚ :=
  vec.set idx (vec.getD idx 0 + 1)

/-- The `textVector` function of `src/recommender.js` lines 27–37: a
size-`size` bag of hashed words; each token is hashed to a seed, a
single `mulberry32` draw selects the bucket `⌊rnd * size⌋`, and that
bucket is incremented. -/
def textVector (name : String) (size : Nat) : List ℚ :=
  (tokenize name).foldl
    (fun vec t => bumpAt vec (floorScale (mulberryNext (hashToSeed t)).1 size))
    (List.replicate size (0 : ℚ))

/-- The `deterministicRandomVector` function of `src/recommender.js`
lines 39–45: `len` consecutive draws from `mulberry32(hashToSeed key)`. -/
def deterministicRandomVector (key : String) (len : Nat) : List ℚ :=
  mulberryStream (hashToSeed key) len

/-- The raw (pre-normalization) feature of `Recommender.buildIndex`
(`src/recommender.js` lines 112–116): the concatenation
`textVector(file, 64) ++ detRand(key ++ ":a", 8) ++ detRand(key ++ ":v", 8)`. -/
def synthesize (key file : String) : List ℚ :=
  textVector file 64 ++ deterministicRandomVector (key ++ ":a") 8 ++
    deterministicRandomVector (key ++ ":v") 8

/-! ### KMeans (`src/recommender.js` lines 51–97)

Distances never take square roots, so the whole clustering loop lives
in `ℚ`.  Out-of-range coordinate reads are `(x[j] || 0)`, i.e. `getD _ 0`. -/

/-- Squared Euclidean distance over the first `dim` coordinates, as the
inner accumulation loop of `kmeans` computes it. -/
def dist2 (dim : Nat) (v c : List ℚ) : ℚ :=
  (List.range dim).foldl
    (fun d j => d + (v.getD j 0 - c.getD j 0) * (v.getD j 0 - c.getD j 0)) 0

/-- Scan of the centroid list continuing from a current best
`(best, bestd)`; a strictly smaller distance replaces the best, so ties
keep the earlier (lower-index) centroid. -/
def nearestFrom (dim : Nat) (v : List ℚ) (best : Nat) (bestd : ℚ) (k : Nat) :
    List (List ℚ) → Nat
  | [] => best
  | c :: rest =>
    let d := dist2 dim v c
    if d < bestd then nearestFrom dim v k d (k + 1) rest
    else nearestFrom dim v best bestd (k + 1) rest

/-- Index of the nearest centroid.  The JS loop starts from
`best = 0, bestd = Infinity`, so the first centroid always replaces the
initial state and an empty centroid list leaves `best = 0`. -/
def nearest (dim : Nat) (v : List ℚ) : List (List ℚ) → Nat
  | [] => 0
  | c :: rest => nearestFrom dim v 0 (dist2 dim v c) 1 rest

/-- The per-round assignment pass: each data point is labelled with its
nearest centroid. -/
def assignLabels (data : List (List ℚ)) (cents : List (List ℚ)) (dim : Nat) :
    List Nat :=
  data.map (fun v => nearest dim v cents)

/-- Pointwise vector addition over `dim` coordinates, the inner loop of
`centroids[c][j] += (data[i][j] || 0)`. -/
def vecAddTo (dim : Nat) (acc v : List ℚ) : List ℚ :=
  (List.range dim).map (fun j => acc.getD j 0 + v.getD j 0)

/-- One step of the centroid-accumulation loop: bump the count of the
point's cluster and add the point into that cluster's running sum. -/
def accumStep (dim : Nat) (st : List Nat × List (List ℚ)) (p : List ℚ × Nat) :
    List Nat × List (List ℚ) :=
  (st.1.set p.2 (st.1.getD p.2 0 + 1),
   st.2.set p.2 (vecAddTo dim (st.2.getD p.2 []) p.1))

/-- The centroid-recomputation block of `kmeans` (lines 83–93): zero all
centroids and counts, accumulate sums per assigned cluster, then divide
every cluster with a non-zero count by its count; a zero-count cluster
is skipped by the division (so it keeps the zeroed sum vector). -/
def updateCentroids (data : List (List ℚ)) (labels : List Nat)
    (nC dim : Nat) : List (List ℚ) :=
  let z := (data.zip labels).foldl (accumStep dim)
    (List.replicate nC 0, List.replicate nC (List.replicate dim (0 : ℚ)))
  (List.range nC).map (fun c =>
    if z.1.getD c 0 = 0 then z.2.getD c []
    else (z.2.getD c []).map (fun x => x / (z.1.getD c 0 : ℚ)))

/-- The main `kmeans` iteration (lines 66–94), fuelled by the remaining
iteration budget (`maxIter = 40`).  Each round assigns labels, breaks
before recomputing when no label changed (`changed === 0`), and
otherwise recomputes centroids and continues. -/
def kmeansLoop (data : List (List ℚ)) (dim : Nat) :
    Nat → List Nat → List (List ℚ) → List Nat × List (List ℚ)
  | 0, labels, cents => (labels, cents)
  | fuel + 1, labels, cents =>
    let labels2 := assignLabels data cents dim
    if labels2 = labels then (labels, cents)
    else kmeansLoop data dim fuel labels2
      (updateCentroids data labels2 cents.length dim)

/-- The centroid-initialization `while` loop of `kmeans` (lines 55–63):
repeatedly draw `⌊rnd() * data.length⌋`, skip indices already used, and
copy the data row at each fresh index, until `min k data.length`
centroids exist.  The JS loop has no iteration bound (a repeating
generator would spin), so the embedding carries explicit fuel; the
concrete runs below verify that the fuel suffices by computation. -/
def kmeansInitLoop (data : List (List ℚ)) (target : Nat) :
    Nat → Nat → List Nat → List (List ℚ) → List (List ℚ)
  | 0, _, _, acc => acc
  | fuel + 1, state, used, acc =>
    if target ≤ acc.length then acc
    else
      let p := mulberryNext state
      let idx := floorScale p.1 data.length
      if idx ∈ used then kmeansInitLoop data target fuel p.2 used acc
      else kmeansInitLoop data target fuel p.2 (idx :: used)
        (acc ++ [data.getD idx []])

/-- Centroid initialization with the fixed seed `123456`. -/
def kmeansInit (data : List (List ℚ)) (k : Nat) : List (List ℚ) :=
  kmeansInitLoop data (min k data.length) 10000 123456 [] []

/-- The whole `kmeans(data, k, maxIter = 40)` function: empty data gives
an empty result; otherwise the dimension is the first row's length,
labels start at all zeros, and the loop runs for at most 40 rounds. -/
def kmeans (data : List (List ℚ)) (k : Nat) :
    List Nat × List (List ℚ) :=
  match data with
  | [] => ([], [])
  | d0 :: _ =>
    kmeansLoop data d0.length 40 (List.replicate data.length 0)
      (kmeansInit data k)

/-! ### Post descriptors (shape shared by `recommend` and the sampler) -/

/-- Characters `encodeURIComponent` leaves unescaped:
alphanumerics and `- _ . ! ~ * ' ( )`. -/
def isUnreservedChar (c : Char) : Bool :=
  (c ≥ 'A' && c ≤ 'Z') || (c ≥ 'a' && c ≤ 'z') || (c ≥ '0' && c ≤ '9') ||
    c = '-' || c = '_' || c = '.' || c = '!' || c = '~' || c = '*' ||
    c.toNat = 39 || c = '(' || c = ')'

/-- Upper-case hexadecimal digit. -/
def hexDigit (n : Nat) : Char :=
  if n < 10 then Char.ofNat (48 + n) else Char.ofNat (55 + n)

/-- JS `encodeURIComponent`: unreserved characters pass through, all
others become percent-encoded UTF-8 bytes. -/
def encodeURIComponent (s : String) : String :=
  String.mk (s.data.flatMap (fun c =>
    if isUnreservedChar c then [c]
    else (utf8Bytes c).flatMap (fun b =>
      ['%', hexDigit (b / 16), hexDigit (b % 16)])))

/-- The JS extension-stripping idiom `file.replace(/\.[^/.]+$/, '')`:
remove a trailing `.ext` where `ext` is a non-empty run free of dots
and slashes; otherwise leave the string unchanged. -/
def stripExt (s : String) : String :=
  let rev := s.data.reverse
  let ext := rev.takeWhile (fun c => c ≠ '.' && c ≠ '/')
  if ext.length < rev.length ∧ rev.getD ext.length ' ' = '.' ∧ ext ≠ [] then
    String.mk ((rev.drop (ext.length + 1)).reverse)
  else s

/-- The post-descriptor record returned by both the sampler
(`src/unnamed/part_001` lines 227–233) and `recommend`
(`src/recommender.js` lines 194–200 and 217–223). -/
structure Post where
  videoUrl : String
  thumbnailUrl : String
  user : String
  caption : String
  song : String
deriving DecidableEq, Repr

/-- Build the post descriptor for a category/file pair, exactly as both
source sites do. -/
def mkPost (cat file : String) : Post :=
  { videoUrl := "/videos/" ++ encodeURIComponent cat ++ "/" ++ encodeURIComponent file
    thumbnailUrl := "/videos/" ++ encodeURIComponent cat ++ "/" ++
      encodeURIComponent (stripExt file ++ ".webp")
    user := cat
    caption := file
    song := "" }

/-- The `category/file` key that identifies the item a descriptor shows:
`user` holds the raw category and `caption` the raw file name. -/
def postKey (p : Post) : String := p.user ++ "/" ++ p.caption

/-! ### Recommender index (`src/recommender.js` lines 99–132) -/

/-- One entry of `Recommender.index`. -/
structure ContentItem where
  key : String
  category : String
  file : String
  feature : List ℝ
deriving Inhabited

/-- The squared-norm accumulation `v.reduce((s,x) => s + (x||0)*(x||0), 0)`
over rationals. -/
def sqFoldQ (v : List ℚ) : ℚ := v.foldl (fun s x => s + x * x) 0

/-- The normalization step of `buildIndex` (lines 117–119):
`norm = Math.sqrt(Σ x²) || 1.0`, then divide every coordinate by it.
A zero raw vector has norm `0`, which is falsy, so the divisor becomes
`1` and the vector is unchanged. -/
noncomputable def normalize (v : List ℚ) : List ℝ :=
  let n : ℝ := Real.sqrt ((sqFoldQ v : ℚ) : ℝ)
  let divisor := if n = 0 then 1 else n
  v.map (fun x => ((x : ℚ) : ℝ) / divisor)

/-- The item `buildIndex` pushes for one category/file pair. -/
noncomputable def buildItem (cat file : String) : ContentItem :=
  { key := cat ++ "/" ++ file
    category := cat
    file := file
    feature := normalize (synthesize (cat ++ "/" ++ file) file) }

/-- The index built by `Recommender.buildIndex(fileMap)` (lines
108–122): all categories in map order, all files of a category in list
order. -/
noncomputable def buildIndexItems (fileMap : List (String × List String)) :
    List ContentItem :=
  fileMap.flatMap (fun p => p.2.map (fun file => buildItem p.1 file))

/-- The `keyToIndex` lookup table: `forEach` assigns `key ↦ i` in index
order, so a duplicated key keeps its last ordinal. -/
def keyToIndex (index : List ContentItem) (k : String) : Option Nat :=
  ((index.enum.filter (fun p => p.2.key = k)).map Prod.fst).getLast?

/-! ### `recommend` (`src/recommender.js` lines 135–224) -/

/-- A user-behavior entry `{ watchTime, likes }` as the server stores it. -/
structure BehaviorEntry where
  watchTime : ℚ
  likes : ℤ
deriving DecidableEq

/-- The first-seen order of categories, i.e. the key order of the JS
`counts` object built by the fallback branch. -/
def catsFirstSeen (index : List ContentItem) : List String :=
  index.foldl (fun acc it => if it.category ∈ acc then acc else acc ++ [it.category]) []

/-- The item count of a category, i.e. `counts[cat]`. -/
def catCount (index : List ContentItem) (c : String) : Nat :=
  index.countP (fun it => it.category == c)

/-- Stable insertion for the comparator `(a,b) => counts[b] - counts[a]`
(descending by count; ties keep first-seen order). -/
def insertByCount (index : List ContentItem) (c : String) :
    List String → List String
  | [] => [c]
  | d :: ds =>
    if catCount index d < catCount index c then c :: d :: ds
    else d :: insertByCount index c ds

/-- Stable sort of the category list by descending item count. -/
def sortCats (index : List ContentItem) : List String → List String
  | [] => []
  | c :: cs => insertByCount index c (sortCats index cs)

/-- `sortedCats` of the fallback branch (line 206). -/
def sortedCats (index : List ContentItem) : List String :=
  sortCats index (catsFirstSeen index)

/-- The inner fallback loop (lines 209–214): walk the index, keep items
of the current category that are not excluded, and break as soon as
`limit` items have been collected. -/
def fallbackInner (excluded : Finset String) (limit : Nat) (cat : String) :
    List ContentItem → List ContentItem → List ContentItem
  | [], out => out
  | it :: rest, out =>
    if it.category ≠ cat then fallbackInner excluded limit cat rest out
    else if it.key ∈ excluded then fallbackInner excluded limit cat rest out
    else
      let out2 := out ++ [it]
      if limit ≤ out2.length then out2
      else fallbackInner excluded limit cat rest out2

/-- The outer fallback loop (lines 208–216) over the sorted categories. -/
def fallbackOuter (index : List ContentItem) (excluded : Finset String)
    (limit : Nat) : List String → List ContentItem → List ContentItem
  | [], out => out
  | cat :: cats, out =>
    let out2 := fallbackInner excluded limit cat index out
    if limit ≤ out2.length then out2
    else fallbackOuter index excluded limit cats out2

/-- The item list the popularity fallback assembles. -/
def fallbackItems (index : List ContentItem) (excluded : Finset String)
    (limit : Nat) : List ContentItem :=
  fallbackOuter index excluded limit (sortedCats index) []

/-- The fallback branch result: `out.slice(0, limit)` mapped to post
descriptors (lines 217–223). -/
def fallbackPosts (index : List ContentItem) (excluded : Finset String)
    (limit : Nat) : List Post :=
  ((fallbackItems index excluded limit).take limit).map
    (fun it => mkPost it.category it.file)

section Ranker

open Classical

/-- The `dot` helper of `recommend` (line 142): iterate over the first
vector's indices, reading missing coordinates of the second as 0. -/
noncomputable def dotR : List ℝ → List ℝ → ℝ
  | [], _ => 0
  | x :: xs, ys => x * ys.headD 0 + dotR xs ys.tail

/-- Squared-norm accumulation over reals. -/
noncomputable def sqFoldR (v : List ℝ) : ℝ := v.foldl (fun s x => s + x * x) 0

/-- The `cosSim` helper (line 143): each norm is replaced by 1 when it
is 0 (the `|| 1` guard), then `dot / (da * db)`. -/
noncomputable def cosSim (a b : List ℝ) : ℝ :=
  let da := if Real.sqrt (sqFoldR a) = 0 then 1 else Real.sqrt (sqFoldR a)
  let db := if Real.sqrt (sqFoldR b) = 0 then 1 else Real.sqrt (sqFoldR b)
  dotR a b / (da * db)

/-- One step of the profile-accumulation loop (lines 151–159): weight
`watchTime + 3·likes`, skip keys without an index entry (they also do
not contribute to the total weight), otherwise add the weighted feature
into the profile. -/
noncomputable def profileStep (index : List ContentItem)
    (behavior : List (String × BehaviorEntry)) (st : List ℝ × ℚ) (k : String) :
    List ℝ × ℚ :=
  let meta := (List.lookup k behavior).getD ⟨0, 0⟩
  let weight : ℚ := meta.watchTime + (meta.likes : ℚ) * 3
  match keyToIndex index k with
  | none => st
  | some i =>
    let feat := (index.getD i default).feature
    ((List.range st.1.length).map
       (fun j => st.1.getD j 0 + feat.getD j 0 * (weight : ℝ)),
     st.2 + weight)

/-- The user profile vector (lines 149–161): accumulate weighted
features, clamp a non-positive total weight to 1, divide. -/
noncomputable def buildProfile (index : List ContentItem)
    (behavior : List (String × BehaviorEntry)) (dim : Nat)
    (userKeys : List String) : List ℝ :=
  let st := userKeys.foldl (profileStep index behavior)
    (List.replicate dim (0 : ℝ), (0 : ℚ))
  let total := if st.2 ≤ 0 then (1 : ℚ) else st.2
  st.1.map (fun x => x / (total : ℝ))

/-- A scored candidate (lines 164–169). -/
structure Scored where
  i : Nat
  key : String
  sim : ℝ
  item : ContentItem
deriving Inhabited

/-- The body of the candidate-scoring loop (lines 164–169): skip keys
in the exclusion set, otherwise record position, key, cosine similarity
to the profile, and the item. -/
noncomputable def scoreF (profile : List ℝ) (recent : Finset String)
    (p : Nat × ContentItem) : Option Scored :=
  if p.2.key ∈ recent then none
  else some ⟨p.1, p.2.key, cosSim profile p.2.feature, p.2⟩

/-- Score every candidate not in the exclusion set by cosine similarity
to the profile, in index order. -/
noncomputable def scoreItems (index : List ContentItem) (profile : List ℝ)
    (recent : Finset String) : List Scored :=
  index.enum.filterMap (scoreF profile recent)

/-- Stable insertion for `scored.sort((a,b) => b.sim - a.sim)`:
descending by similarity, ties keep encounter order. -/
noncomputable def insertBySim (x : Scored) : List Scored → List Scored
  | [] => [x]
  | y :: ys => if y.sim < x.sim then x :: y :: ys else y :: insertBySim x ys

/-- Stable sort of the scored list by descending similarity. -/
noncomputable def sortBySim : List Scored → List Scored
  | [] => []
  | x :: xs => insertBySim x (sortBySim xs)

/-- The `maxSim` accumulation of the MMR inner loop (lines 183–184):
maximum similarity of the candidate to the already-selected items,
starting from 0. -/
noncomputable def maxSimTo (index : List ContentItem) (cand : Scored)
    (selected : List Scored) : ℝ :=
  selected.foldl
    (fun m s => max m (cosSim (index.getD cand.i default).feature
      (index.getD s.i default).feature)) 0

/-- The MMR score `λ·sim − (1−λ)·maxSim` with `λ = 0.65` (line 185). -/
noncomputable def mmrScore (index : List ContentItem) (cand : Scored)
    (selected : List Scored) : ℝ :=
  (13 / 20 : ℝ) * cand.sim - (1 - 13 / 20) * maxSimTo index cand selected

/-- The scan for the best remaining candidate (lines 178–187): walk the
scored list, skip already-selected keys, keep the position of the
strictly largest MMR score (`-Infinity` start means the first eligible
candidate is always taken; later candidates must exceed strictly). -/
noncomputable def scanBestAux (index : List ContentItem)
    (selected : List Scored) (selKeys : Finset String) :
    List Scored → Nat → Option (Nat × ℝ) → Option (Nat × ℝ)
  | [], _, best => best
  | cand :: rest, p, best =>
    if cand.key ∈ selKeys then scanBestAux index selected selKeys rest (p + 1) best
    else
      let m := mmrScore index cand selected
      match best with
      | none => scanBestAux index selected selKeys rest (p + 1) (some (p, m))
      | some pb =>
        if pb.2 < m then scanBestAux index selected selKeys rest (p + 1) (some (p, m))
        else scanBestAux index selected selKeys rest (p + 1) (some pb)

/-- The position `bestIdx` chosen by one MMR round, `none` for `-1`. -/
noncomputable def scanBest (index : List ContentItem) (selected : List Scored)
    (selKeys : Finset String) (scored : List Scored) : Option Nat :=
  (scanBestAux index selected selKeys scored 0 none).map Prod.fst

/-- The MMR selection `while` loop (lines 176–191).  Every iteration
splices one element out of `scored`, so the loop runs at most
`scored.length` times; the fuel argument is initialized to exactly that
bound and therefore never cuts the loop short. -/
noncomputable def mmrLoop (index : List ContentItem) (limit : Nat) :
    Nat → List Scored → List Scored → Finset String → List Scored
  | 0, _, selected, _ => selected
  | fuel + 1, scored, selected, selKeys =>
    if limit ≤ selected.length ∨ scored = [] then selected
    else
      match scanBest index selected selKeys scored with
      | none => selected
      | some p =>
        let chosen := scored.getD p default
        mmrLoop index limit fuel (scored.eraseIdx p) (selected ++ [chosen])
          (insert chosen.key selKeys)

/-- The whole `Recommender.recommend(userBehavior, recentSet, limit)`
(lines 135–224). -/
noncomputable def recommend (index : List ContentItem)
    (behavior : List (String × BehaviorEntry)) (recent : Finset String)
    (limit : Nat) : List Post :=
  let userKeys := (behavior.map Prod.fst).filter
    (fun k => (keyToIndex index k).isSome)
  if userKeys = [] then fallbackPosts index recent limit
  else
    let dim := (index.headD default).feature.length
    let profile := buildProfile index behavior dim userKeys
    let sorted := sortBySim (scoreItems index profile recent)
    let selected := mmrLoop index limit sorted.length sorted [] ∅
    ((selected.map Scored.item).take limit).map
      (fun it => mkPost it.category it.file)

end Ranker

/-! ### The server's recent window and feed sampler
(`src/unnamed/part_001` lines 85–250) -/

/-- The constant `RECENT_LIMIT = 50`. -/
def RECENT_LIMIT : Nat := 50

/-- The shared mutable recent-window state: the ordered `recentQueue`
and the parallel membership `recentSet`. -/
structure FeedState where
  queue : List String
  recent : Finset String
deriving DecidableEq

/-- The eviction `while` loop of the sampler (lines 237–240): while the
queue is longer than `RECENT_LIMIT`, shift the oldest key off the front
and delete it from the set. -/
def evictLoop : List String → Finset String → List String × Finset String
  | [], s => ([], s)
  | old :: rest, s =>
    if RECENT_LIMIT < (old :: rest).length then evictLoop rest (s.erase old)
    else (old :: rest, s)

/-- Acceptance bookkeeping for one emitted key (lines 235–241): push it
on the queue, run the eviction loop, then add the key to the set. -/
def pushRecent (st : FeedState) (key : String) : FeedState :=
  let q1 := st.queue ++ [key]
  let p := evictLoop q1 st.recent
  { queue := p.1, recent := insert key p.2 }

/-- One attempt's pseudo-random draw (lines 207–219): seed a fresh
`mulberry32` from `(GLOBAL_SEED + pairIndex + attempts) >>> 0`, pick a
category by the first draw, give up on an empty file list, otherwise
pick a start index by the second draw and choose
`files[(start + i % 2) % files.length]`. -/
def attemptDraw (gseed : Nat) (cats : List String) (fm : String → List String)
    (i attempts : Nat) : Option (String × String) :=
  let seed := (gseed + i / 2 + attempts) % two32
  let p1 := mulberryNext seed
  let cat := cats.getD (floorScale p1.1 cats.length) ""
  let files := fm cat
  if files.length = 0 then none
  else
    let p2 := mulberryNext p1.2
    let start := floorScale p2.1 files.length
    some (cat, files.getD ((start + i % 2) % files.length) "")

/-- The sampler's `while` loop (lines 204–244), with the attempt counter
threaded explicitly and the remaining attempt budget as fuel (the JS
condition is `attempts < MAX_ATTEMPTS` with `attempts` incremented at
the top of each iteration, so starting the fuel at `MAX_ATTEMPTS`
matches it exactly).  Returns the emitted posts, the final window
state, and the final attempt count. -/
def genLoop (gseed : Nat) (cats : List String) (fm : String → List String)
    (offset limit : Nat) :
    Nat → Nat → List Post → FeedState → List Post × FeedState × Nat
  | 0, attempts, out, st => (out, st, attempts)
  | fuel + 1, attempts, out, st =>
    if limit ≤ out.length then (out, st, attempts)
    else
      let attempts2 := attempts + 1
      let i := offset + out.length
      match attemptDraw gseed cats fm i attempts2 with
      | none => genLoop gseed cats fm offset limit fuel attempts2 out st
      | some cf =>
        let key := cf.1 ++ "/" ++ cf.2
        if key ∈ st.recent then genLoop gseed cats fm offset limit fuel attempts2 out st
        else genLoop gseed cats fm offset limit fuel attempts2
          (out ++ [mkPost cf.1 cf.2]) (pushRecent st key)

/-- `generatePostsRange(offset, limit)` (lines 197–250): empty category
list short-circuits to an empty result; otherwise the loop runs with
`MAX_ATTEMPTS = limit * 10`.  The function result is the post list and
the mutated window state. -/
def generatePostsRange (gseed : Nat) (cats : List String)
    (fm : String → List String) (offset limit : Nat) (st : FeedState) :
    List Post × FeedState :=
  if cats.length = 0 then ([], st)
  else
    let r := genLoop gseed cats fm offset limit (limit * 10) 0 [] st
    (r.1, r.2.1)

/-- What `saveRecent` persists (lines 106–111): the last
`RECENT_LIMIT` entries of the queue, `queue.slice(-RECENT_LIMIT)`. -/
def saveRecentQueue (q : List String) : List String :=
  q.drop (q.length - RECENT_LIMIT)

/-- The recent-window part of `loadPersistent` (lines 124–130): keep the
last `RECENT_LIMIT` entries of the parsed queue, then rebuild the set
from the queue's contents. -/
def loadRecent (q : List String) : FeedState :=
  let q2 := q.drop (q.length - RECENT_LIMIT)
  { queue := q2, recent := q2.toFinset }

/-! ### The `/api/track` handler (`src/unnamed/part_001` lines 282–300) -/

/-- One tracking request body `{ key, watchTime = 0, action }`.  A
missing `watchTime` defaults to 0 before reaching the handler; `action`
is absent or an arbitrary string. -/
structure TrackEvent where
  key : Option String
  watchTime : ℚ
  action : Option String

/-- The user-behavior store, keyed by `"category/file"`. -/
def BehaviorMap : Type := String → Option BehaviorEntry

/-- The `/api/track` handler's state update: reject a missing key (400
response, no mutation); otherwise create the entry on first sight,
accumulate the reported watch time, increment likes on `action ===
'like'`, and on `action === 'skip'` decrement the watch time by 1
clamped at 0 (`Math.max(0, wt - 1)`). -/
def trackStep (b : BehaviorMap) (ev : TrackEvent) : BehaviorMap :=
  match ev.key with
  | none => b
  | some k =>
    let e0 := (b k).getD { watchTime := 0, likes := 0 }
    let e1 : BehaviorEntry := { e0 with watchTime := e0.watchTime + ev.watchTime }
    let e2 : BehaviorEntry :=
      if ev.action = some "like" then { e1 with likes := e1.likes + 1 } else e1
    let e3 : BehaviorEntry :=
      if ev.action = some "skip" then { e2 with watchTime := max 0 (e2.watchTime - 1) }
      else e2
    fun k2 => if k2 = k then some e3 else b k2

/-- A whole session of tracking events, applied in order. -/
def trackRun (b : BehaviorMap) (evs : List TrackEvent) : BehaviorMap :=
  evs.foldl trackStep b

/-- The RecentWindow invariant of the data model: the queue holds
distinct keys, at most `RECENT_LIMIT` of them, and the membership set
holds exactly the queue's contents. -/
def RecentInv (st : FeedState) : Prop :=
  st.queue.Nodup ∧ st.queue.length ≤ RECENT_LIMIT ∧
    st.recent = st.queue.toFinset

/-! ## Supporting lemmas -/

lemma mulberryStream_length (seed n : Nat) :
    (mulberryStream seed n).length = n := by
  induction n generalizing seed with
  | zero => rfl
  | succ n ih => simp [mulberryStream, ih]

lemma bumpAt_length (vec : List ℚ) (idx : Nat) :
    (bumpAt vec idx).length = vec.length := by
  simp [bumpAt]

lemma textVector_length (name : String) (size : Nat) :
    (textVector name size).length = size := by
  unfold textVector
  generalize tokenize name = toks
  induction toks using List.reverseRecOn with
  | nil => simp
  | append_singleton ts t ih => simp [List.foldl_append, bumpAt_length, ih]

lemma deterministicRandomVector_length (key : String) (len : Nat) :
    (deterministicRandomVector key len).length = len :=
  mulberryStream_length _ _

lemma synthesize_length (key file : String) :
    (synthesize key file).length = 80 := by
  simp [synthesize, textVector_length, deterministicRandomVector_length]

lemma sqFoldQ_eq_sum (v : List ℚ) :
    sqFoldQ v = (v.map (fun x => x * x)).sum := by
  have h : ∀ (l : List ℚ) (a : ℚ),
      l.foldl (fun s x => s + x * x) a = a + (l.map (fun x => x * x)).sum := by
    intro l
    induction l with
    | nil => simp
    | cons x xs ih => intro a; simp [ih, add_assoc]
  rw [sqFoldQ, h v 0, zero_add]

lemma sqFoldR_eq_sum (v : List ℝ) :
    sqFoldR v = (v.map (fun x => x * x)).sum := by
  have h : ∀ (l : List ℝ) (a : ℝ),
      l.foldl (fun s x => s + x * x) a = a + (l.map (fun x => x * x)).sum := by
    intro l
    induction l with
    | nil => simp
    | cons x xs ih => intro a; simp [ih, add_assoc]
  rw [sqFoldR, h v 0, zero_add]

lemma sqFoldQ_nonneg (v : List ℚ) : 0 ≤ sqFoldQ v := by
  rw [sqFoldQ_eq_sum]
  apply List.sum_nonneg
  intro x hx
  rcases List.mem_map.mp hx with ⟨y, _, rfl⟩
  exact mul_self_nonneg y

lemma sqFoldQ_eq_zero (v : List ℚ) (h : sqFoldQ v = 0) :
    v = List.replicate v.length 0 := by
  induction v with
  | nil => rfl
  | cons x xs ih =>
    rw [sqFoldQ_eq_sum] at h
    simp only [List.map_cons, List.sum_cons] at h
    have hx2 : 0 ≤ x * x := mul_self_nonneg x
    have hxs : 0 ≤ sqFoldQ xs := sqFoldQ_nonneg xs
    rw [sqFoldQ_eq_sum] at hxs
    have hx : x * x = 0 := by linarith
    have hs : (xs.map (fun x => x * x)).sum = 0 := by linarith
    have hx0 : x = 0 := by
      by_contra hne
      exact hne (by nlinarith)
    subst hx0
    have hxs2 := ih (by rw [sqFoldQ_eq_sum]; exact hs)
    rw [List.length_cons, List.replicate_succ]
    exact congrArg (List.cons 0) hxs2

lemma sqFoldQ_replicate_zero (n : Nat) :
    sqFoldQ (List.replicate n 0) = 0 := by
  rw [sqFoldQ_eq_sum]
  simp

/-- The squared-sum casts from `ℚ` to `ℝ` along the coordinatewise
embedding. -/
lemma sqFold_cast (v : List ℚ) :
    ((sqFoldQ v : ℚ) : ℝ) = sqFoldR (v.map (fun x : ℚ => (x : ℝ))) := by
  rw [sqFoldQ_eq_sum, sqFoldR_eq_sum]
  induction v with
  | nil => simp
  | cons x xs ih =>
    simp only [List.map_cons, List.sum_cons, Rat.cast_add, Rat.cast_mul]
    rw [ih]

lemma normalize_zero (v : List ℚ) (h : sqFoldQ v = 0) :
    normalize v = v.map (fun x : ℚ => (x : ℝ)) := by
  unfold normalize
  have h0 : Real.sqrt ((sqFoldQ v : ℚ) : ℝ) = 0 := by
    rw [h]; simp
  rw [h0]
  simp

/-- Squared real sum of the scaled vector: dividing every coordinate by
`d` divides the squared sum by `d * d`. -/
lemma sqFoldR_scaled (v : List ℚ) (d : ℝ) :
    sqFoldR (v.map (fun x : ℚ => ((x : ℚ) : ℝ) / d)) =
      sqFoldR (v.map (fun x : ℚ => (x : ℝ))) / (d * d) := by
  rw [sqFoldR_eq_sum, sqFoldR_eq_sum]
  induction v with
  | nil => simp
  | cons x xs ih =>
    simp only [List.map_cons, List.sum_cons, ih, add_div]
    congr 1
    rw [div_mul_div_comm]

/-- Norm of a normalized non-zero vector is 1. -/
lemma normalize_norm_one (v : List ℚ) (h : sqFoldQ v ≠ 0) :
    Real.sqrt (sqFoldR (normalize v)) = 1 := by
  have hpos : 0 < sqFoldQ v := lt_of_le_of_ne (sqFoldQ_nonneg v) (Ne.symm h)
  have hposR : (0 : ℝ) < ((sqFoldQ v : ℚ) : ℝ) := by exact_mod_cast hpos
  have hsq : Real.sqrt ((sqFoldQ v : ℚ) : ℝ) ≠ 0 :=
    ne_of_gt (Real.sqrt_pos.mpr hposR)
  unfold normalize
  simp only [if_neg hsq]
  rw [sqFoldR_scaled, Real.mul_self_sqrt (le_of_lt hposR), ← sqFold_cast,
    div_self (ne_of_gt hposR), Real.sqrt_one]

@[simp] lemma buildItem_key (cat file : String) :
    (buildItem cat file).key = cat ++ "/" ++ file := rfl

@[simp] lemma buildItem_category (cat file : String) :
    (buildItem cat file).category = cat := rfl

@[simp] lemma buildItem_file (cat file : String) :
    (buildItem cat file).file = file := rfl

@[simp] lemma buildItem_feature (cat file : String) :
    (buildItem cat file).feature =
      normalize (synthesize (cat ++ "/" ++ file) file) := rfl

/-- Characterization of the items `buildIndex` produces. -/
lemma mem_buildIndexItems (fm : List (String × List String))
    (it : ContentItem) (h : it ∈ buildIndexItems fm) :
    ∃ cat file, it = buildItem cat file := by
  unfold buildIndexItems at h
  rcases List.mem_flatMap.mp h with ⟨p, _, hp⟩
  rcases List.mem_map.mp hp with ⟨file, _, rfl⟩
  exact ⟨p.1, file, rfl⟩

lemma getD_set_ne {α : Type} (l : List α) (i j : Nat) (x d : α) (h : i ≠ j) :
    (l.set i x).getD j d = l.getD j d := by
  simp [List.getD_eq_getElem?_getD, List.getElem?_set_ne h]

lemma getD_set_self {α : Type} (l : List α) (i : Nat) (x d : α)
    (h : i < l.length) : (l.set i x).getD i d = x := by
  simp [List.getD_eq_getElem?_getD, List.getElem?_set_eq_of_lt, h]

lemma rangeMap_getD {α : Type} (n c : Nat) (f : Nat → α) (h : c < n) (d : α) :
    ((List.range n).map f).getD c d = f c := by
  simp [List.getD_eq_getElem?_getD, List.getElem?_map, List.getElem?_range, h]

lemma getD_map_lt {α β : Type} (l : List α) (f : α → β) (j : Nat)
    (h : j < l.length) (d : α) (e : β) : (l.map f).getD j e = f (l.getD j d) := by
  rw [List.getD_eq_getElem?_getD, List.getD_eq_getElem?_getD,
    List.getElem?_map, List.getElem?_eq_getElem h]
  simp

lemma vecAddTo_length (dim : Nat) (a v : List ℚ) :
    (vecAddTo dim a v).length = dim := by
  simp [vecAddTo]

lemma vecAddTo_getD (dim : Nat) (a v : List ℚ) (j : Nat) (hj : j < dim) :
    (vecAddTo dim a v).getD j 0 = a.getD j 0 + v.getD j 0 := by
  unfold vecAddTo
  exact rangeMap_getD dim j _ hj 0

/-- After the centroid-accumulation fold, slot `c` holds the count of
points assigned to `c` and the fold of `vecAddTo` over those points. -/
lemma accum_counts_sums (dim : Nat) :
    ∀ (ps : List (List ℚ × Nat)) (counts : List Nat) (sums : List (List ℚ))
      (c : Nat), c < counts.length → c < sums.length →
      ((ps.foldl (accumStep dim) (counts, sums)).1.getD c 0 =
        counts.getD c 0 + (ps.filter (fun p => p.2 = c)).length) ∧
      ((ps.foldl (accumStep dim) (counts, sums)).2.getD c [] =
        (ps.filter (fun p => p.2 = c)).foldl
          (fun a p => vecAddTo dim a p.1) (sums.getD c [])) := by
  intro ps
  induction ps with
  | nil => intro counts sums c h1 h2; simp
  | cons p ps ih =>
    intro counts sums c h1 h2
    simp only [List.foldl_cons]
    have h1s : c < (counts.set p.2 (counts.getD p.2 0 + 1)).length := by
      simpa using h1
    have h2s : c < (sums.set p.2 (vecAddTo dim (sums.getD p.2 []) p.1)).length := by
      simpa using h2
    have hrec := ih (counts.set p.2 (counts.getD p.2 0 + 1))
      (sums.set p.2 (vecAddTo dim (sums.getD p.2 []) p.1)) c h1s h2s
    by_cases hc : p.2 = c
    · subst hc
      have hcnt : (counts.set p.2 (counts.getD p.2 0 + 1)).getD p.2 0 =
          counts.getD p.2 0 + 1 := getD_set_self _ _ _ _ h1
      have hsum : (sums.set p.2 (vecAddTo dim (sums.getD p.2 []) p.1)).getD p.2 [] =
          vecAddTo dim (sums.getD p.2 []) p.1 := getD_set_self _ _ _ _ h2
      constructor
      · rw [(show accumStep dim (counts, sums) p =
            (counts.set p.2 (counts.getD p.2 0 + 1),
             sums.set p.2 (vecAddTo dim (sums.getD p.2 []) p.1)) from rfl),
          hrec.1, hcnt]
        simp [List.filter_cons]
        omega
      · rw [(show accumStep dim (counts, sums) p =
            (counts.set p.2 (counts.getD p.2 0 + 1),
             sums.set p.2 (vecAddTo dim (sums.getD p.2 []) p.1)) from rfl),
          hrec.2, hsum]
        simp [List.filter_cons]
    · have hcnt : (counts.set p.2 (counts.getD p.2 0 + 1)).getD c 0 =
          counts.getD c 0 := getD_set_ne _ _ _ _ _ hc
      have hsum : (sums.set p.2 (vecAddTo dim (sums.getD p.2 []) p.1)).getD c [] =
          sums.getD c [] := getD_set_ne _ _ _ _ _ hc
      constructor
      · rw [(show accumStep dim (counts, sums) p =
            (counts.set p.2 (counts.getD p.2 0 + 1),
             sums.set p.2 (vecAddTo dim (sums.getD p.2 []) p.1)) from rfl),
          hrec.1, hcnt]
        simp [List.filter_cons, hc]
      · rw [(show accumStep dim (counts, sums) p =
            (counts.set p.2 (counts.getD p.2 0 + 1),
             sums.set p.2 (vecAddTo dim (sums.getD p.2 []) p.1)) from rfl),
          hrec.2, hsum]
        simp [List.filter_cons, hc]

lemma foldVecAdd_length (dim : Nat) (pts : List (List ℚ × Nat)) (acc : List ℚ)
    (hacc : acc.length = dim) :
    (pts.foldl (fun a p => vecAddTo dim a p.1) acc).length = dim := by
  induction pts generalizing acc with
  | nil => simpa
  | cons p ps ih =>
    simpa using ih (vecAddTo dim acc p.1) (vecAddTo_length dim acc p.1)

lemma foldVecAdd_getD (dim : Nat) (pts : List (List ℚ × Nat)) (acc : List ℚ)
    (j : Nat) (hj : j < dim) :
    (pts.foldl (fun a p => vecAddTo dim a p.1) acc).getD j 0 =
      acc.getD j 0 + (pts.map (fun p => p.1.getD j 0)).sum := by
  induction pts generalizing acc with
  | nil => simp
  | cons p ps ih =>
    simp only [List.foldl_cons, List.map_cons, List.sum_cons]
    rw [ih (vecAddTo dim acc p.1), vecAddTo_getD dim acc p.1 j hj]
    ring

/-- The centroid-update characterization: slot `c < nC` of
`updateCentroids` equals the (possibly zero-count) per-cluster formula. -/
lemma updateCentroids_getD (data : List (List ℚ)) (labels : List Nat)
    (nC dim c : Nat) (hc : c < nC) :
    (updateCentroids data labels nC dim).getD c [] =
      (let asgn := (data.zip labels).filter (fun p => p.2 = c)
       let s := asgn.foldl (fun a p => vecAddTo dim a p.1)
         (List.replicate dim (0 : ℚ))
       if asgn.length = 0 then s
       else s.map (fun x => x / (asgn.length : ℚ))) := by
  unfold updateCentroids
  have hlen1 : c < (List.replicate nC (0 : Nat)).length := by simpa using hc
  have hlen2 : c < (List.replicate nC (List.replicate dim (0 : ℚ))).length := by
    simpa using hc
  have hacc := accum_counts_sums dim (data.zip labels)
    (List.replicate nC 0) (List.replicate nC (List.replicate dim (0 : ℚ)))
    c hlen1 hlen2
  rw [rangeMap_getD nC c _ hc []]
  have hgetc : (List.replicate nC (0 : Nat)).getD c 0 = 0 := by
    simp [List.getD_eq_getElem?_getD, List.getElem?_replicate, hc]
  have hgets : (List.replicate nC (List.replicate dim (0 : ℚ))).getD c [] =
      List.replicate dim (0 : ℚ) := by
    simp [List.getD_eq_getElem?_getD, List.getElem?_replicate, hc]
  rw [hacc.1, hacc.2, hgetc, hgets]
  have hfold : (fun (a : List ℚ) (p : List ℚ × Nat) => vecAddTo dim a p.1) =
      (fun a p => vecAddTo dim a p.1) := rfl
  simp only [Nat.zero_add]

/-! ## Claim theorems -/

/-- C1 fails as stated: in the real `kmeans` run on
`data = [[1],[1],[5]]` with `k = 3`, the initial centroids are
`[[1],[5],[1]]`, the first assignment pass labels the points
`[0,0,1]` (which differs from the initial all-zero labels, so the
round does recompute centroids), cluster `2` receives no point, and the
recomputation replaces its centroid `[1]` by the zero vector `[0]`
instead of leaving it unchanged; the full run returns
`([0,0,1], [[1],[5],[0]])`. -/
theorem kmeans_empty_cluster_counterexample :
    (assignLabels [[(1 : ℚ)], [1], [5]] (kmeansInit [[(1 : ℚ)], [1], [5]] 3) 1)
        = [0, 0, 1] ∧
    kmeansInit [[(1 : ℚ)], [1], [5]] 3 = [[1], [5], [1]] ∧
    (assignLabels [[(1 : ℚ)], [1], [5]] (kmeansInit [[(1 : ℚ)], [1], [5]] 3) 1)
        ≠ List.replicate 3 0 ∧
    (updateCentroids [[(1 : ℚ)], [1], [5]] [0, 0, 1] 3 1).getD 2 [] ≠
      (kmeansInit [[(1 : ℚ)], [1], [5]] 3).getD 2 [] ∧
    kmeans [[(1 : ℚ)], [1], [5]] 3 = ([0, 0, 1], [[1], [5], [0]]) := by
  with_unfolding_all decide

/-- C1 amended: after points are assigned, every centroid whose cluster
is non-empty is recomputed as the arithmetic mean of its assigned
points; every centroid whose cluster is empty is reset to the all-zero
vector (not left at its previous value); and the iteration stops early
in any round where no point changes cluster membership. -/
theorem kmeans_round_behavior (data : List (List ℚ)) (labels : List Nat)
    (nC dim c : Nat) (hc : c < nC) (cents : List (List ℚ)) (fuel : Nat) :
    ((data.zip labels).filter (fun p => p.2 = c) ≠ [] →
      ∀ j, j < dim →
        ((updateCentroids data labels nC dim).getD c []).getD j 0 =
          (((data.zip labels).filter (fun p => p.2 = c)).map
              (fun p => p.1.getD j 0)).sum /
            ((((data.zip labels).filter (fun p => p.2 = c)).length : Nat) : ℚ)) ∧
    ((data.zip labels).filter (fun p => p.2 = c) = [] →
      (updateCentroids data labels nC dim).getD c [] =
        List.replicate dim (0 : ℚ)) ∧
    (assignLabels data cents dim = labels →
      kmeansLoop data dim (fuel + 1) labels cents = (labels, cents)) := by
  refine ⟨?_, ?_, ?_⟩
  · intro hne j hj
    rw [updateCentroids_getD data labels nC dim c hc]
    simp only
    rw [if_neg (by simpa using List.length_pos.mpr hne |>.ne')]
    have hslen : (((data.zip labels).filter (fun p => p.2 = c)).foldl
        (fun a p => vecAddTo dim a p.1) (List.replicate dim (0 : ℚ))).length
        = dim :=
      foldVecAdd_length dim _ _ (by simp)
    rw [getD_map_lt _ _ j (by rw [hslen]; exact hj) 0 0]
    rw [foldVecAdd_getD dim _ _ j hj]
    simp [List.getD_eq_getElem?_getD, List.getElem?_replicate, hj]
  · intro hemp
    rw [updateCentroids_getD data labels nC dim c hc]
    simp [hemp]
  · intro hfix
    simp [kmeansLoop, hfix]

/-- Witness for the amended C1 at the concrete run of the
counterexample: cluster `0` is non-empty with mean `1`, cluster `2` is
empty and its centroid is reset to `[0]`, and a fixed assignment stops
the loop. -/
theorem kmeans_round_behavior_witness :
    (([[(1 : ℚ)], [1], [5]].zip [0, 0, 1]).filter (fun p => p.2 = 2) = []) ∧
    (updateCentroids [[(1 : ℚ)], [1], [5]] [0, 0, 1] 3 1).getD 2 [] =
      List.replicate 1 (0 : ℚ) ∧
    (([[(1 : ℚ)], [1], [5]].zip [0, 0, 1]).filter (fun p => p.2 = 0) ≠ []) ∧
    ((updateCentroids [[(1 : ℚ)], [1], [5]] [0, 0, 1] 3 1).getD 0 []).getD 0 0 =
      ((([[(1 : ℚ)], [1], [5]].zip [0, 0, 1]).filter (fun p => p.2 = 0)).map
          (fun p => p.1.getD 0 0)).sum /
        (((([[(1 : ℚ)], [1], [5]].zip [0, 0, 1]).filter
          (fun p => p.2 = 0)).length : Nat) : ℚ) :=
  ⟨by with_unfolding_all decide,
   (kmeans_round_behavior [[(1 : ℚ)], [1], [5]] [0, 0, 1] 3 1 2
       (by decide) [] 0).2.1 (by with_unfolding_all decide),
   by with_unfolding_all decide,
   (kmeans_round_behavior [[(1 : ℚ)], [1], [5]] [0, 0, 1] 3 1 0
       (by decide) [] 0).1 (by with_unfolding_all decide) 0 (by decide)⟩

/-- Preservation of the non-negativity invariant by one tracking event
whose reported watch time is non-negative. -/
lemma trackStep_preserves (b : BehaviorMap) (ev : TrackEvent)
    (hinv : ∀ k e, b k = some e → 0 ≤ e.watchTime ∧ 0 ≤ e.likes)
    (hev : 0 ≤ ev.watchTime) :
    ∀ k e, trackStep b ev k = some e → 0 ≤ e.watchTime ∧ 0 ≤ e.likes := by
  intro k e he
  unfold trackStep at he
  cases hk : ev.key with
  | none => rw [hk] at he; exact hinv k e he
  | some k0 =>
    rw [hk] at he
    simp only at he
    by_cases hkk : k = k0
    · rw [if_pos hkk] at he
      have he0 : 0 ≤ ((b k0).getD ⟨0, 0⟩).watchTime ∧
          0 ≤ ((b k0).getD ⟨0, 0⟩).likes := by
        cases hb : b k0 with
        | none => simp [hb]
        | some e0 => simpa [hb] using hinv k0 e0 hb
      have he' : e = _ := (Option.some_inj.mp he).symm
      subst he'
      constructor
      · by_cases hskip : ev.action = some "skip"
        · simp only [if_pos hskip]
          by_cases hlike : ev.action = some "like"
          · simp only [if_pos hlike]
            exact le_max_left 0 _
          · simp only [if_neg hlike]
            exact le_max_left 0 _
        · simp only [if_neg hskip]
          by_cases hlike : ev.action = some "like"
          · simp only [if_pos hlike]
            have := he0.1
            linarith
          · simp only [if_neg hlike]
            have := he0.1
            linarith
      · by_cases hskip : ev.action = some "skip"
        · simp only [if_pos hskip]
          by_cases hlike : ev.action = some "like"
          · simp only [if_pos hlike]
            have := he0.2
            linarith
          · simp only [if_neg hlike]
            exact he0.2
        · simp only [if_neg hskip]
          by_cases hlike : ev.action = some "like"
          · simp only [if_pos hlike]
            have := he0.2
            linarith
          · simp only [if_neg hlike]
            exact he0.2
    · rw [if_neg hkk] at he
      exact hinv k e he

/-- C5 fails as stated: the handler accepts an arbitrary numeric
`watchTime`, so a single event with `watchTime = -5` (and no action)
leaves the entry at `watchTimeSeconds = -5 < 0`, violating the claimed
invariant `watchTimeSeconds ≥ 0`. -/
theorem track_negative_watchTime_counterexample :
    trackStep (fun _ => none)
        { key := some "a", watchTime := -5, action := none } "a" =
      some { watchTime := -5, likes := 0 } ∧
    ¬ (0 : ℚ) ≤ -5 := by
  constructor
  · with_unfolding_all decide
  · with_unfolding_all decide

/-- C5 amended: provided every incoming event reports a non-negative
`watchTime` (the client sends elapsed seconds), every entry satisfies
`watchTimeSeconds ≥ 0` and `likeCount ≥ 0` after any event sequence; a
`"like"` event increments `likeCount` by exactly 1 (while still adding
its reported watch time), and a `"skip"` event sets the watch time to
`max 0 (old + reported − 1)` — the decrement by 1 floored at 0. -/
theorem track_invariant_amended :
    (∀ (b : BehaviorMap) (evs : List TrackEvent),
      (∀ k e, b k = some e → 0 ≤ e.watchTime ∧ 0 ≤ e.likes) →
      (∀ ev ∈ evs, 0 ≤ ev.watchTime) →
      ∀ k e, trackRun b evs k = some e → 0 ≤ e.watchTime ∧ 0 ≤ e.likes) ∧
    (∀ (b : BehaviorMap) (ev : TrackEvent) (k : String),
      ev.key = some k → ev.action = some "like" →
      trackStep b ev k = some
        { watchTime := ((b k).getD ⟨0, 0⟩).watchTime + ev.watchTime
          likes := ((b k).getD ⟨0, 0⟩).likes + 1 }) ∧
    (∀ (b : BehaviorMap) (ev : TrackEvent) (k : String),
      ev.key = some k → ev.action = some "skip" →
      trackStep b ev k = some
        { watchTime := max 0 (((b k).getD ⟨0, 0⟩).watchTime + ev.watchTime - 1)
          likes := ((b k).getD ⟨0, 0⟩).likes }) := by
  refine ⟨?_, ?_, ?_⟩
  · intro b evs
    induction evs generalizing b with
    | nil => intro hinv _ k e he; exact hinv k e he
    | cons ev evs ih =>
      intro hinv hevs k e he
      have hstep := trackStep_preserves b ev hinv (hevs ev (by simp))
      exact ih (trackStep b ev) hstep
        (fun ev2 h2 => hevs ev2 (by simp [h2])) k e he
  · intro b ev k hk hact
    unfold trackStep
    rw [hk]
    simp only [hact, if_pos rfl]
    have hne : (some "like" : Option String) ≠ some "skip" := by decide
    simp only [if_neg hne, if_pos rfl, if_true]
  · intro b ev k hk hact
    unfold trackStep
    rw [hk]
    simp only [hact, if_pos rfl]
    have hne : (some "skip" : Option String) ≠ some "like" := by decide
    simp only [if_neg hne, if_pos rfl, if_true]

/-- Witness for the amended C5: from the empty store, the sequence
"watch 5 seconds and like", then "skip" leaves a non-negative entry;
the like and skip effects are checked at those concrete events. -/
theorem track_invariant_amended_witness :
    (∀ ev ∈ [({ key := some "a", watchTime := 5, action := some "like" } :
        TrackEvent), { key := some "a", watchTime := 0, action := some "skip" }],
      0 ≤ ev.watchTime) ∧
    (∀ k e, trackRun (fun _ => none)
        [({ key := some "a", watchTime := 5, action := some "like" } :
          TrackEvent), { key := some "a", watchTime := 0, action := some "skip" }]
        k = some e → 0 ≤ e.watchTime ∧ 0 ≤ e.likes) ∧
    trackStep (fun _ => none)
        { key := some "a", watchTime := 5, action := some "like" } "a" =
      some { watchTime := 0 + 5, likes := 0 + 1 } :=
  ⟨by intro ev hev
      simp only [List.mem_cons, List.mem_singleton] at hev
      rcases hev with rfl | rfl | h
      · with_unfolding_all decide
      · with_unfolding_all decide
      · exact absurd h (by simp),
   track_invariant_amended.1 (fun _ => none)
     [{ key := some "a", watchTime := 5, action := some "like" },
      { key := some "a", watchTime := 0, action := some "skip" }]
     (fun k e he => Option.noConfusion he)
     (by intro ev hev
         simp only [List.mem_cons, List.mem_singleton] at hev
         rcases hev with rfl | rfl | h
         · with_unfolding_all decide
         · with_unfolding_all decide
         · exact absurd h (by simp)),
   track_invariant_amended.2.1 (fun _ => none)
     { key := some "a", watchTime := 5, action := some "like" } "a" rfl rfl⟩

lemma evictLoop_of_le (q : List String) (s : Finset String)
    (h : q.length ≤ RECENT_LIMIT) : evictLoop q s = (q, s) := by
  cases q with
  | nil => rfl
  | cons old rest =>
    unfold evictLoop
    rw [if_neg (by omega)]

lemma evictLoop_overflow (old : String) (rest : List String)
    (s : Finset String) (h : rest.length = RECENT_LIMIT) :
    evictLoop (old :: rest) s = (rest, s.erase old) := by
  unfold evictLoop
  rw [if_pos (by simp [h])]
  exact evictLoop_of_le rest _ (le_of_eq h)

/-- Accepting a fresh key preserves the RecentWindow invariant. -/
lemma pushRecent_inv (st : FeedState) (key : String) (hinv : RecentInv st)
    (hnot : key ∉ st.recent) : RecentInv (pushRecent st key) := by
  obtain ⟨hnd, hle, hset⟩ := hinv
  have hkeyq : key ∉ st.queue := by
    rw [hset] at hnot
    exact fun hmem => hnot (List.mem_toFinset.mpr hmem)
  have hnd1 : (st.queue ++ [key]).Nodup := by
    simp [List.nodup_append, hnd, hkeyq]
  by_cases hfull : st.queue.length < RECENT_LIMIT
  · have heq : evictLoop (st.queue ++ [key]) st.recent =
        (st.queue ++ [key], st.recent) :=
      evictLoop_of_le _ _ (by simp; omega)
    refine ⟨?_, ?_, ?_⟩ <;> simp only [pushRecent, heq]
    · exact hnd1
    · simp; omega
    · rw [hset, List.toFinset_append]
      ext x
      simp [or_comm]
  · have hlen : st.queue.length = RECENT_LIMIT := by omega
    cases hq : st.queue with
    | nil => rw [hq] at hlen; simp [RECENT_LIMIT] at hlen
    | cons h0 t =>
      rw [hq] at hlen hnd1 hnd hset hkeyq
      have hconsapp : st.queue ++ [key] = h0 :: (t ++ [key]) := by rw [hq]; rfl
      have hlent : (t ++ [key]).length = RECENT_LIMIT := by
        simp at hlen ⊢
        omega
      have heq : evictLoop (st.queue ++ [key]) st.recent =
          (t ++ [key], st.recent.erase h0) := by
        rw [hconsapp]
        exact evictLoop_overflow h0 (t ++ [key]) st.recent hlent
      have hh0t : h0 ∉ t := (List.nodup_cons.mp hnd).1
      refine ⟨?_, ?_, ?_⟩ <;> simp only [pushRecent, heq]
      · exact hnd1.sublist (by simp)
      · rw [hlent]
      · rw [hset, List.toFinset_cons,
          Finset.erase_insert (fun hmem => hh0t (List.mem_toFinset.mp hmem)),
          List.toFinset_append]
        ext x
        simp [or_comm]

/-- FIFO shape of the queue after accepting a fresh key: append when
below the bound, drop the oldest otherwise. -/
lemma pushRecent_queue_shape (st : FeedState) (key : String)
    (hinv : RecentInv st) (_hnot : key ∉ st.recent) :
    (pushRecent st key).queue =
      if st.queue.length < RECENT_LIMIT then st.queue ++ [key]
      else st.queue.tail ++ [key] := by
  obtain ⟨hnd, hle, hset⟩ := hinv
  by_cases hfull : st.queue.length < RECENT_LIMIT
  · rw [if_pos hfull]
    simp only [pushRecent,
      evictLoop_of_le _ _ (show (st.queue ++ [key]).length ≤ RECENT_LIMIT by
        simp; omega)]
  · rw [if_neg hfull]
    have hlen : st.queue.length = RECENT_LIMIT := by omega
    cases hq : st.queue with
    | nil => rw [hq] at hlen; simp [RECENT_LIMIT] at hlen
    | cons h0 t =>
      rw [hq] at hlen
      have hlent : (t ++ [key]).length = RECENT_LIMIT := by
        simp at hlen ⊢
        omega
      have hconsapp : st.queue ++ [key] = h0 :: (t ++ [key]) := by rw [hq]; rfl
      simp only [pushRecent, hconsapp,
        evictLoop_overflow h0 (t ++ [key]) st.recent hlent]
      rfl

/-- The sampler loop preserves the RecentWindow invariant. -/
lemma genLoop_inv (gseed : Nat) (cats : List String)
    (fm : String → List String) (offset limit : Nat) :
    ∀ (fuel attempts : Nat) (out : List Post) (st : FeedState),
      RecentInv st →
      RecentInv (genLoop gseed cats fm offset limit fuel attempts out st).2.1 := by
  intro fuel
  induction fuel with
  | zero => intro attempts out st h; exact h
  | succ fuel ih =>
    intro attempts out st h
    rw [genLoop]
    by_cases hlim : limit ≤ out.length
    · rw [if_pos hlim]; exact h
    · rw [if_neg hlim]
      cases hdraw : attemptDraw gseed cats fm (offset + out.length) (attempts + 1) with
      | none => simp only [hdraw]; exact ih _ _ _ h
      | some cf =>
        simp only [hdraw]
        by_cases hrec : cf.1 ++ "/" ++ cf.2 ∈ st.recent
        · rw [if_pos hrec]; exact ih _ _ _ h
        · rw [if_neg hrec]
          exact ih _ _ _ (pushRecent_inv st _ h hrec)

/-- C2: the RecentWindow invariant (distinct keys, size ≤ 50, set equal
to the queue's contents) is preserved by every `generatePostsRange`
call; loading a persisted (duplicate-free) queue re-establishes it; and
overflow evicts exactly the oldest key first. -/
theorem recentWindow_invariant :
    (∀ (gseed : Nat) (cats : List String) (fm : String → List String)
       (offset limit : Nat) (st : FeedState), RecentInv st →
       RecentInv (generatePostsRange gseed cats fm offset limit st).2) ∧
    (∀ q : List String, q.Nodup → RecentInv (loadRecent q)) ∧
    (∀ st : FeedState, RecentInv st →
       RecentInv (loadRecent (saveRecentQueue st.queue))) ∧
    (∀ (st : FeedState) (key : String), RecentInv st → key ∉ st.recent →
       (pushRecent st key).queue =
         if st.queue.length < RECENT_LIMIT then st.queue ++ [key]
         else st.queue.tail ++ [key]) := by
  have hload : ∀ q : List String, q.Nodup → RecentInv (loadRecent q) := by
    intro q hnd
    refine ⟨hnd.sublist (List.drop_sublist _ _), ?_, rfl⟩
    simp only [loadRecent, List.length_drop]
    omega
  refine ⟨?_, hload, ?_, ?_⟩
  · intro gseed cats fm offset limit st h
    unfold generatePostsRange
    by_cases hc : cats.length = 0
    · rw [if_pos hc]; exact h
    · rw [if_neg hc]
      exact genLoop_inv gseed cats fm offset limit _ _ _ st h
  · intro st hinv
    exact hload _ (hinv.1.sublist (List.drop_sublist _ _))
  · exact pushRecent_queue_shape

/-- Witness for C2: the invariant holds for the empty window and a
concrete one-call sample run on a one-category catalog, for loading a
concrete persisted queue, and for an overflow push at a full window. -/
theorem recentWindow_invariant_witness :
    RecentInv ⟨[], ∅⟩ ∧
    RecentInv (generatePostsRange 7 ["c"]
      (fun c => if c = "c" then ["x.mp4", "y.mp4"] else []) 0 2 ⟨[], ∅⟩).2 ∧
    ("a" :: (List.range 49).map (fun n => "k" ++ Nat.repr n)).Nodup ∧
    RecentInv (loadRecent ("a" :: (List.range 49).map
      (fun n => "k" ++ Nat.repr n))) ∧
    RecentInv (loadRecent (saveRecentQueue
      (FeedState.queue ⟨["a"], {"a"}⟩))) :=
  ⟨⟨List.nodup_nil, by simp [RECENT_LIMIT], by simp⟩,
   recentWindow_invariant.1 7 ["c"]
     (fun c => if c = "c" then ["x.mp4", "y.mp4"] else []) 0 2 ⟨[], ∅⟩
     ⟨List.nodup_nil, by simp [RECENT_LIMIT], by simp⟩,
   by decide,
   recentWindow_invariant.2.1 _ (by decide),
   recentWindow_invariant.2.2.1 ⟨["a"], {"a"}⟩
     ⟨by decide, by simp [RECENT_LIMIT], by simp⟩⟩

lemma mulberryNext_lt (a : Nat) : (mulberryNext a).1 < two32 := by
  unfold mulberryNext
  simp only
  have h32 : two32 = 2 ^ 32 := rfl
  have ht1 : (Nat.xor ((a + 0x6D2B79F5) % two32)
      (((a + 0x6D2B79F5) % two32) / 2 ^ 15) * Nat.lor ((a + 0x6D2B79F5) % two32) 1)
      % two32 < two32 := Nat.mod_lt _ (by rw [h32]; positivity)
  set t1 := (Nat.xor ((a + 0x6D2B79F5) % two32)
    (((a + 0x6D2B79F5) % two32) / 2 ^ 15) * Nat.lor ((a + 0x6D2B79F5) % two32) 1)
    % two32 with ht1def
  have ht2 : Nat.xor t1 ((t1 + Nat.xor t1 (t1 / 2 ^ 7) * Nat.lor t1 61 % two32)
      % two32) < two32 := by
    rw [h32]
    exact Nat.xor_lt_two_pow (by rw [← h32]; exact ht1)
      (Nat.mod_lt _ (by positivity))
  rw [h32]
  exact Nat.xor_lt_two_pow (by rw [← h32]; exact ht2)
    (lt_of_le_of_lt (Nat.div_le_self _ _) (by rw [← h32]; exact ht2))

lemma floorScale_lt (r n : Nat) (hr : r < two32) (hn : 0 < n) :
    floorScale r n < n := by
  unfold floorScale
  apply Nat.div_lt_of_lt_mul
  rw [Nat.mul_comm r n]
  exact lt_of_lt_of_eq (mul_lt_mul_of_pos_left hr hn) (Nat.mul_comm n two32)

lemma getD_mem {α : Type} (l : List α) (i : Nat) (d : α) (h : i < l.length) :
    l.getD i d ∈ l := by
  rw [List.getD_eq_getElem?_getD, List.getElem?_eq_getElem h]
  exact List.getElem_mem h

/-- An accepted draw names a real category and one of its files. -/
lemma attemptDraw_mem (gseed : Nat) (cats : List String)
    (fm : String → List String) (i a : Nat) (cf : String × String)
    (hcats : cats ≠ []) (h : attemptDraw gseed cats fm i a = some cf) :
    cf.1 ∈ cats ∧ cf.2 ∈ fm cf.1 := by
  unfold attemptDraw at h
  by_cases hfl : (fm (cats.getD (floorScale
      (mulberryNext ((gseed + i / 2 + a) % two32)).1 cats.length) "")).length = 0
  · rw [if_pos hfl] at h
    exact absurd h (by simp)
  · rw [if_neg hfl] at h
    have hcf := Option.some_inj.mp h
    have hcat : cf.1 = cats.getD (floorScale
        (mulberryNext ((gseed + i / 2 + a) % two32)).1 cats.length) "" := by
      rw [← hcf]
    have hcatmem : cf.1 ∈ cats := by
      rw [hcat]
      exact getD_mem cats _ ""
        (floorScale_lt _ _ (mulberryNext_lt _) (List.length_pos.mpr hcats))
    refine ⟨hcatmem, ?_⟩
    have hfile : cf.2 = (fm cf.1).getD
        ((floorScale (mulberryNext (mulberryNext
            ((gseed + i / 2 + a) % two32)).2).1 (fm cf.1).length + i % 2)
          % (fm cf.1).length) "" := by
      rw [← hcf]
    rw [hfile]
    refine getD_mem _ _ ""
      (Nat.mod_lt _ ?_)
    rw [hcat]
    omega

/-- C6: the attempt draw is seeded with
`(processStartSeed + ⌊i/2⌋ + attemptCounter) mod 2^32`, the accepted
file is `files[(start + i mod 2) mod len files]` where `start` is the
second draw scaled to the file count, and every iteration of the
sampler loop — accepting, retrying on an empty category, or retrying on
a recent key — advances the attempt counter by exactly 1. -/
theorem sampler_draw_formula :
    (∀ (gseed : Nat) (cats : List String) (fm : String → List String)
       (i a : Nat) (cf : String × String),
       attemptDraw gseed cats fm i a = some cf →
       cf.1 = cats.getD (floorScale
         (mulberryNext ((gseed + i / 2 + a) % two32)).1 cats.length) "" ∧
       cf.2 = (fm cf.1).getD
         ((floorScale (mulberryNext (mulberryNext
             ((gseed + i / 2 + a) % two32)).2).1 (fm cf.1).length + i % 2)
           % (fm cf.1).length) "") ∧
    (∀ (gseed : Nat) (cats : List String) (fm : String → List String)
       (offset limit fuel attempts : Nat) (out : List Post) (st : FeedState),
       ¬ limit ≤ out.length →
       genLoop gseed cats fm offset limit (fuel + 1) attempts out st =
         match attemptDraw gseed cats fm (offset + out.length) (attempts + 1) with
         | none => genLoop gseed cats fm offset limit fuel (attempts + 1) out st
         | some cf =>
           if cf.1 ++ "/" ++ cf.2 ∈ st.recent then
             genLoop gseed cats fm offset limit fuel (attempts + 1) out st
           else
             genLoop gseed cats fm offset limit fuel (attempts + 1)
               (out ++ [mkPost cf.1 cf.2]) (pushRecent st (cf.1 ++ "/" ++ cf.2))) := by
  constructor
  · intro gseed cats fm i a cf h
    unfold attemptDraw at h
    by_cases hfl : (fm (cats.getD (floorScale
        (mulberryNext ((gseed + i / 2 + a) % two32)).1 cats.length) "")).length = 0
    · rw [if_pos hfl] at h
      exact absurd h (by simp)
    · rw [if_neg hfl] at h
      have hcf := Option.some_inj.mp h
      have hcat : cf.1 = cats.getD (floorScale
          (mulberryNext ((gseed + i / 2 + a) % two32)).1 cats.length) "" := by
        rw [← hcf]
      refine ⟨hcat, ?_⟩
      rw [← hcf]
  · intro gseed cats fm offset limit fuel attempts out st hlim
    rw [genLoop, if_neg hlim]

/-- Witness for C6 at a concrete draw: on one category `"c"` with two
files, the first attempt for output position 0 accepts the file given by
the spec formula, and the loop equation holds at a concrete state. -/
theorem sampler_draw_formula_witness :
    attemptDraw 7 ["c"] (fun c => if c = "c" then ["x.mp4", "y.mp4"] else [])
        0 1 = some ("c", "y.mp4") ∧
    ("c", "y.mp4").1 = ["c"].getD (floorScale
      (mulberryNext ((7 + 0 / 2 + 1) % two32)).1 ["c"].length) "" ∧
    ¬ (2 : Nat) ≤ ([] : List Post).length ∧
    genLoop 7 ["c"] (fun c => if c = "c" then ["x.mp4", "y.mp4"] else [])
        0 2 1 1 [] ⟨[], ∅⟩ =
      match attemptDraw 7 ["c"]
          (fun c => if c = "c" then ["x.mp4", "y.mp4"] else []) 0 2 with
      | none => genLoop 7 ["c"]
          (fun c => if c = "c" then ["x.mp4", "y.mp4"] else []) 0 2 0 2 [] ⟨[], ∅⟩
      | some cf =>
        if cf.1 ++ "/" ++ cf.2 ∈ (⟨[], ∅⟩ : FeedState).recent then
          genLoop 7 ["c"] (fun c => if c = "c" then ["x.mp4", "y.mp4"] else [])
            0 2 0 2 [] ⟨[], ∅⟩
        else
          genLoop 7 ["c"] (fun c => if c = "c" then ["x.mp4", "y.mp4"] else [])
            0 2 0 2 [mkPost cf.1 cf.2] (pushRecent ⟨[], ∅⟩ (cf.1 ++ "/" ++ cf.2)) :=
  ⟨by decide,
   (sampler_draw_formula.1 7 ["c"]
     (fun c => if c = "c" then ["x.mp4", "y.mp4"] else []) 0 1 ("c", "y.mp4")
     (by decide)).1,
   by decide,
   by
     have heq := sampler_draw_formula.2 7 ["c"]
       (fun c => if c = "c" then ["x.mp4", "y.mp4"] else []) 0 2 0 1 []
       ⟨[], ∅⟩ (by decide)
     simpa using heq⟩

lemma genLoop_out_le (gseed : Nat) (cats : List String)
    (fm : String → List String) (offset limit : Nat) :
    ∀ (fuel attempts : Nat) (out : List Post) (st : FeedState),
      out.length ≤ limit →
      (genLoop gseed cats fm offset limit fuel attempts out st).1.length ≤ limit := by
  intro fuel
  induction fuel with
  | zero => intro attempts out st h; exact h
  | succ fuel ih =>
    intro attempts out st h
    rw [genLoop]
    by_cases hlim : limit ≤ out.length
    · rw [if_pos hlim]; exact h
    · rw [if_neg hlim]
      cases hdraw : attemptDraw gseed cats fm (offset + out.length) (attempts + 1) with
      | none => simp only [hdraw]; exact ih _ _ _ h
      | some cf =>
        simp only [hdraw]
        by_cases hrec : cf.1 ++ "/" ++ cf.2 ∈ st.recent
        · rw [if_pos hrec]; exact ih _ _ _ h
        · rw [if_neg hrec]
          exact ih _ _ _ (by simp; omega)

lemma genLoop_attempts_le (gseed : Nat) (cats : List String)
    (fm : String → List String) (offset limit : Nat) :
    ∀ (fuel attempts : Nat) (out : List Post) (st : FeedState),
      (genLoop gseed cats fm offset limit fuel attempts out st).2.2 ≤
        attempts + fuel := by
  intro fuel
  induction fuel with
  | zero => intro attempts out st; simp [genLoop]
  | succ fuel ih =>
    intro attempts out st
    rw [genLoop]
    by_cases hlim : limit ≤ out.length
    · rw [if_pos hlim]; simp
    · rw [if_neg hlim]
      cases hdraw : attemptDraw gseed cats fm (offset + out.length) (attempts + 1) with
      | none =>
        simp only [hdraw]
        exact le_trans (ih (attempts + 1) out st) (by omega)
      | some cf =>
        simp only [hdraw]
        by_cases hrec : cf.1 ++ "/" ++ cf.2 ∈ st.recent
        · rw [if_pos hrec]
          exact le_trans (ih (attempts + 1) out st) (by omega)
        · rw [if_neg hrec]
          exact le_trans (ih (attempts + 1) _ _) (by omega)

/-- C7: the sampler always returns at most `limit` posts; an empty
category list yields the empty result immediately; the retry loop makes
at most `MAX_ATTEMPTS = limit * 10` attempts in total; and when every
catalog key is already in the recent set the call returns an empty list
(under-fill) rather than failing. -/
theorem sampler_bounded (gseed : Nat) (cats : List String)
    (fm : String → List String) (offset limit : Nat) (st : FeedState) :
    (generatePostsRange gseed cats fm offset limit st).1.length ≤ limit ∧
    (cats = [] → generatePostsRange gseed cats fm offset limit st = ([], st)) ∧
    (genLoop gseed cats fm offset limit (limit * 10) 0 [] st).2.2 ≤
      limit * 10 ∧
    ((∀ c ∈ cats, ∀ f ∈ fm c, (c ++ "/" ++ f) ∈ st.recent) →
      (generatePostsRange gseed cats fm offset limit st).1 = []) := by
  refine ⟨?_, ?_, ?_, ?_⟩
  · unfold generatePostsRange
    by_cases hc : cats.length = 0
    · rw [if_pos hc]; simp
    · rw [if_neg hc]
      exact genLoop_out_le gseed cats fm offset limit _ _ _ st (by simp)
  · intro hc
    unfold generatePostsRange
    rw [if_pos (by simp [hc])]
  · simpa using genLoop_attempts_le gseed cats fm offset limit (limit * 10) 0 [] st
  · intro hall
    unfold generatePostsRange
    by_cases hc : cats.length = 0
    · rw [if_pos hc]
    · rw [if_neg hc]
      have hcats : cats ≠ [] := by
        intro h0; rw [h0] at hc; exact hc rfl
      suffices hgen : ∀ (fuel attempts : Nat) (out : List Post),
          (genLoop gseed cats fm offset limit fuel attempts out st).1 = out by
        simpa using hgen (limit * 10) 0 []
      intro fuel
      induction fuel with
      | zero => intro attempts out; rfl
      | succ fuel ih =>
        intro attempts out
        rw [genLoop]
        by_cases hlim : limit ≤ out.length
        · rw [if_pos hlim]
        · rw [if_neg hlim]
          cases hdraw : attemptDraw gseed cats fm (offset + out.length)
            (attempts + 1) with
          | none => simp only [hdraw]; exact ih _ _
          | some cf =>
            simp only [hdraw]
            have hmem := attemptDraw_mem gseed cats fm _ _ cf hcats hdraw
            rw [if_pos (hall cf.1 hmem.1 cf.2 hmem.2)]
            exact ih _ _

/-- Witness for C7: a catalog whose single key is already recent yields
an empty sample, and the bounds hold at those concrete arguments. -/
theorem sampler_bounded_witness :
    (∀ c ∈ ["c"], ∀ f ∈ (fun c2 => if c2 = "c" then ["x.mp4"] else []) c,
      (c ++ "/" ++ f) ∈ ({"c/x.mp4"} : Finset String)) ∧
    (generatePostsRange 7 ["c"] (fun c2 => if c2 = "c" then ["x.mp4"] else [])
      0 3 ⟨["c/x.mp4"], {"c/x.mp4"}⟩).1 = [] ∧
    (generatePostsRange 7 ["c"] (fun c2 => if c2 = "c" then ["x.mp4"] else [])
      0 3 ⟨["c/x.mp4"], {"c/x.mp4"}⟩).1.length ≤ 3 :=
  ⟨by decide,
   (sampler_bounded 7 ["c"] (fun c2 => if c2 = "c" then ["x.mp4"] else [])
     0 3 ⟨["c/x.mp4"], {"c/x.mp4"}⟩).2.2.2 (by decide),
   (sampler_bounded 7 ["c"] (fun c2 => if c2 = "c" then ["x.mp4"] else [])
     0 3 ⟨["c/x.mp4"], {"c/x.mp4"}⟩).1⟩

@[simp] lemma postKey_mkPost (cat file : String) :
    postKey (mkPost cat file) = cat ++ "/" ++ file := rfl

lemma tail_append_of_ne_nil {α : Type} (pre l : List α) (h : pre ≠ []) :
    (pre ++ l).tail = pre.tail ++ l := by
  cases pre with
  | nil => exact absurd rfl h
  | cons a t => rfl

/-- Core induction for C10: while the emitted keys form a suffix of the
(invariant-satisfying) queue and at most `limit ≤ 50` keys are asked
for, the emitted keys stay pairwise distinct. -/
lemma genLoop_keys_nodup (gseed : Nat) (cats : List String)
    (fm : String → List String) (offset limit : Nat)
    (hlimit : limit ≤ RECENT_LIMIT) :
    ∀ (fuel attempts : Nat) (out : List Post) (st : FeedState)
      (pre : List String),
      RecentInv st →
      st.queue = pre ++ out.map postKey →
      out.length ≤ limit →
      ((genLoop gseed cats fm offset limit fuel attempts out st).1.map
        postKey).Nodup := by
  intro fuel
  induction fuel with
  | zero =>
    intro attempts out st pre hinv hsuffix _
    have hnd := hinv.1
    rw [hsuffix] at hnd
    exact hnd.of_append_right
  | succ fuel ih =>
    intro attempts out st pre hinv hsuffix hlen
    rw [genLoop]
    by_cases hlim : limit ≤ out.length
    · rw [if_pos hlim]
      have hnd := hinv.1
      rw [hsuffix] at hnd
      exact hnd.of_append_right
    · rw [if_neg hlim]
      cases hdraw : attemptDraw gseed cats fm (offset + out.length)
        (attempts + 1) with
      | none => simp only [hdraw]; exact ih _ _ _ pre hinv hsuffix hlen
      | some cf =>
        simp only [hdraw]
        by_cases hrec : cf.1 ++ "/" ++ cf.2 ∈ st.recent
        · rw [if_pos hrec]; exact ih _ _ _ pre hinv hsuffix hlen
        · rw [if_neg hrec]
          have hinv2 := pushRecent_inv st _ hinv hrec
          have hshape := pushRecent_queue_shape st _ hinv hrec
          have hkeys : (out ++ [mkPost cf.1 cf.2]).map postKey =
              out.map postKey ++ [cf.1 ++ "/" ++ cf.2] := by simp
          by_cases hfull : st.queue.length < RECENT_LIMIT
          · rw [if_pos hfull] at hshape
            refine ih _ _ _ pre hinv2 ?_ (by simp; omega)
            rw [hshape, hsuffix, hkeys, List.append_assoc]
          · rw [if_neg hfull] at hshape
            have hlenq : st.queue.length = RECENT_LIMIT :=
              le_antisymm hinv.2.1 (by omega)
            have hpre : pre ≠ [] := by
              intro h0
              rw [h0, List.nil_append] at hsuffix
              have : st.queue.length = out.length := by
                rw [hsuffix]; simp
              omega
            refine ih _ _ _ pre.tail hinv2 ?_ (by simp; omega)
            rw [hshape, hsuffix, tail_append_of_ne_nil pre _ hpre, hkeys,
              List.append_assoc]

set_option maxRecDepth 1000000 in
/-- C10: any single sampler call asked for at most 50 items returns
posts with pairwise-distinct `category/file` keys (each accepted key is
inserted into the window before the next draw, and with at most 50
emissions none of this call's keys can be evicted first); the guarantee
stops at the window bound — a concrete call asked for 52 items over a
51-key catalog re-emits a key it evicted earlier in the same call. -/
theorem sampler_distinct_keys :
    (∀ (gseed : Nat) (cats : List String) (fm : String → List String)
       (offset limit : Nat) (st : FeedState),
       limit ≤ RECENT_LIMIT → RecentInv st →
       (((generatePostsRange gseed cats fm offset limit st).1.map
         postKey).Nodup)) ∧
    ¬ (((generatePostsRange 0 ["c"]
        (fun c => if c = "c" then (List.range 51).map
          (fun n => "f" ++ Nat.repr n) else [])
        0 52 ⟨[], ∅⟩).1.map postKey).Nodup) := by
  constructor
  · intro gseed cats fm offset limit st hlimit hinv
    unfold generatePostsRange
    by_cases hc : cats.length = 0
    · rw [if_pos hc]; exact List.nodup_nil
    · rw [if_neg hc]
      exact genLoop_keys_nodup gseed cats fm offset limit hlimit _ _ []
        st st.queue hinv (by simp) (by simp)
  · intro hnd
    have hcount := List.nodup_iff_count_le_one.mp hnd "c/f0"
    have hc2 : List.count "c/f0"
        ((generatePostsRange 0 ["c"]
          (fun c => if c = "c" then (List.range 51).map
            (fun n => "f" ++ Nat.repr n) else [])
          0 52 ⟨[], ∅⟩).1.map postKey) = 2 := by decide
    rw [hc2] at hcount
    omega

/-- Witness for C10 at a concrete in-bound call: a two-item catalog
sampled for 2 posts from the empty window yields distinct keys. -/
theorem sampler_distinct_keys_witness :
    (2 : Nat) ≤ RECENT_LIMIT ∧ RecentInv ⟨[], ∅⟩ ∧
    (((generatePostsRange 7 ["c"]
        (fun c => if c = "c" then ["x.mp4", "y.mp4"] else [])
        0 2 ⟨[], ∅⟩).1.map postKey).Nodup) :=
  ⟨by decide,
   ⟨List.nodup_nil, by simp [RECENT_LIMIT], by simp⟩,
   sampler_distinct_keys.1 7 ["c"]
     (fun c => if c = "c" then ["x.mp4", "y.mp4"] else []) 0 2 ⟨[], ∅⟩
     (by decide) ⟨List.nodup_nil, by simp [RECENT_LIMIT], by simp⟩⟩

/-- The inner fallback loop collects, up to the `limit` bound, exactly
the non-excluded items of the current category in catalog order. -/
lemma fallbackInner_eq (excluded : Finset String) (limit : Nat) (cat : String) :
    ∀ (items : List ContentItem) (out : List ContentItem),
      out.length < limit →
      fallbackInner excluded limit cat items out =
        (out ++ items.filter
          (fun it => decide (it.category = cat ∧ it.key ∉ excluded))).take limit := by
  intro items
  induction items with
  | nil =>
    intro out hlen
    simp only [fallbackInner, List.filter_nil, List.append_nil]
    exact (List.take_of_length_le (le_of_lt hlen)).symm
  | cons it rest ih =>
    intro out hlen
    by_cases hcat : it.category = cat
    · by_cases hexc : it.key ∈ excluded
      · rw [fallbackInner, if_neg (by simp [hcat]), if_pos hexc,
          List.filter_cons_of_neg (by simp [hexc])]
        exact ih out hlen
      · rw [fallbackInner, if_neg (by simp [hcat]), if_neg hexc,
          List.filter_cons_of_pos (by simp [hcat, hexc])]
        by_cases hstop : limit ≤ (out ++ [it]).length
        · rw [if_pos hstop]
          have hlen2 : (out ++ [it]).length = limit := by
            simp at hstop ⊢
            omega
          rw [show out ++ it :: List.filter
                (fun it => decide (it.category = cat ∧ it.key ∉ excluded)) rest =
              (out ++ [it]) ++ List.filter
                (fun it => decide (it.category = cat ∧ it.key ∉ excluded)) rest by
            simp]
          rw [List.take_append_eq_append_take, hlen2, Nat.sub_self,
            List.take_zero, List.append_nil,
            List.take_of_length_le (le_of_eq hlen2)]
        · rw [if_neg hstop]
          push_neg at hstop
          rw [ih (out ++ [it]) hstop]
          congr 1
          simp
    · rw [fallbackInner, if_pos (by simpa using hcat),
        List.filter_cons_of_neg (by simp [hcat])]
      exact ih out hlen

/-- The outer fallback loop is the truncation at `limit` of the
category-ordered stream of non-excluded items. -/
lemma fallbackOuter_eq (index : List ContentItem) (excluded : Finset String)
    (limit : Nat) :
    ∀ (cats : List String) (out : List ContentItem),
      out.length < limit →
      fallbackOuter index excluded limit cats out =
        (out ++ cats.flatMap (fun c => index.filter
          (fun it => decide (it.category = c ∧ it.key ∉ excluded)))).take limit := by
  intro cats
  induction cats with
  | nil =>
    intro out hlen
    simp only [fallbackOuter, List.flatMap_nil, List.append_nil]
    exact (List.take_of_length_le (le_of_lt hlen)).symm
  | cons cat cats ih =>
    intro out hlen
    rw [fallbackOuter]
    simp only [List.flatMap_cons]
    rw [fallbackInner_eq excluded limit cat index out hlen]
    set fc := index.filter
      (fun it => decide (it.category = cat ∧ it.key ∉ excluded)) with hfc
    by_cases hstop : limit ≤ ((out ++ fc).take limit).length
    · rw [if_pos hstop]
      have hge : limit ≤ (out ++ fc).length := by
        rw [List.length_take] at hstop
        omega
      rw [show out ++ (fc ++ cats.flatMap (fun c => index.filter
            (fun it => decide (it.category = c ∧ it.key ∉ excluded)))) =
          (out ++ fc) ++ cats.flatMap (fun c => index.filter
            (fun it => decide (it.category = c ∧ it.key ∉ excluded))) by simp]
      conv_rhs => rw [List.take_append_eq_append_take]
      rw [Nat.sub_eq_zero_of_le hge, List.take_zero, List.append_nil]
    · rw [if_neg hstop]
      rw [List.length_take] at hstop
      push_neg at hstop
      have hshort : (out ++ fc).length < limit := by omega
      rw [List.take_of_length_le (le_of_lt hshort)]
      rw [ih (out ++ fc) hshort]
      congr 1
      simp

/-- The popularity-fallback result, as the truncated category-ordered
stream mapped to post descriptors. -/
lemma fallbackPosts_eq (index : List ContentItem) (excluded : Finset String)
    (limit : Nat) :
    fallbackPosts index excluded limit =
      (((sortedCats index).flatMap (fun c => index.filter
          (fun it => decide (it.category = c ∧ it.key ∉ excluded)))).take
        limit).map (fun it => mkPost it.category it.file) := by
  rcases Nat.eq_zero_or_pos limit with hz | hpos
  · subst hz
    simp [fallbackPosts]
  · unfold fallbackPosts fallbackItems
    rw [fallbackOuter_eq index excluded limit (sortedCats index) []
      (by simpa using hpos)]
    rw [List.nil_append, List.take_take, Nat.min_self]

/-- C4: when no behavior key is present in the index, `recommend`
returns the popularity fallback — categories sorted by descending item
count, items emitted in catalog order with excluded keys skipped,
truncated at `limit`; in particular, on the catalog
`A: [a1, a2], B: [b1]` with empty behavior and no exclusions,
`recommend` with limit 2 returns `A/a1` then `A/a2`. -/
theorem recommend_fallback (index : List ContentItem)
    (behavior : List (String × BehaviorEntry)) (recent : Finset String)
    (limit : Nat)
    (hnone : ∀ k ∈ behavior.map Prod.fst, keyToIndex index k = none) :
    recommend index behavior recent limit =
      (((sortedCats index).flatMap (fun c => index.filter
          (fun it => decide (it.category = c ∧ it.key ∉ recent)))).take
        limit).map (fun it => mkPost it.category it.file) ∧
    recommend
        [⟨"A/a1", "A", "a1", []⟩, ⟨"A/a2", "A", "a2", []⟩,
         ⟨"B/b1", "B", "b1", []⟩] [] ∅ 2 =
      [mkPost "A" "a1", mkPost "A" "a2"] := by
  have hgen : ∀ (index2 : List ContentItem)
      (behavior2 : List (String × BehaviorEntry)) (recent2 : Finset String)
      (limit2 : Nat),
      (∀ k ∈ behavior2.map Prod.fst, keyToIndex index2 k = none) →
      recommend index2 behavior2 recent2 limit2 =
        (((sortedCats index2).flatMap (fun c => index2.filter
            (fun it => decide (it.category = c ∧ it.key ∉ recent2)))).take
          limit2).map (fun it => mkPost it.category it.file) := by
    intro index2 behavior2 recent2 limit2 hnone2
    have huk : (behavior2.map Prod.fst).filter
        (fun k => (keyToIndex index2 k).isSome) = [] := by
      rw [List.filter_eq_nil_iff]
      intro k hk
      rw [hnone2 k hk]
      simp
    unfold recommend
    rw [if_pos huk]
    exact fallbackPosts_eq index2 recent2 limit2
  refine ⟨hgen index behavior recent limit hnone, ?_⟩
  rw [hgen _ [] ∅ 2 (by simp)]
  decide

/-- Witness for C4 at the concrete catalog of the claim. -/
theorem recommend_fallback_witness :
    (∀ k ∈ ([] : List (String × BehaviorEntry)).map Prod.fst,
      keyToIndex [(⟨"A/a1", "A", "a1", []⟩ : ContentItem),
        ⟨"A/a2", "A", "a2", []⟩, ⟨"B/b1", "B", "b1", []⟩] k = none) ∧
    recommend
        [⟨"A/a1", "A", "a1", []⟩, ⟨"A/a2", "A", "a2", []⟩,
         ⟨"B/b1", "B", "b1", []⟩] [] ∅ 2 =
      [mkPost "A" "a1", mkPost "A" "a2"] :=
  ⟨by simp,
   (recommend_fallback
     [⟨"A/a1", "A", "a1", []⟩, ⟨"A/a2", "A", "a2", []⟩, ⟨"B/b1", "B", "b1", []⟩]
     [] ∅ 2 (by simp)).2⟩

lemma filter_perm_split {α : Type} (l : List α) (p q : α → Bool) :
    (l.filter q).Perm
      (l.filter (fun a => p a && q a) ++ l.filter (fun a => !p a && q a)) := by
  induction l with
  | nil => simp
  | cons a l ih =>
    by_cases hq : q a = true
    · by_cases hp : p a = true
      · rw [List.filter_cons_of_pos hq, List.filter_cons_of_pos (by simp [hp, hq]),
          List.filter_cons_of_neg (by simp [hp]), List.cons_append]
        exact ih.cons a
      · rw [List.filter_cons_of_pos hq,
          List.filter_cons_of_neg (by simp [hp]),
          List.filter_cons_of_pos (by simp [hp, hq])]
        exact (ih.cons a).trans List.perm_middle.symm
    · rw [List.filter_cons_of_neg hq, List.filter_cons_of_neg (by simp [hq]),
        List.filter_cons_of_neg (by simp [hq])]
      exact ih

/-- Elements already accumulated stay in the first-seen category fold. -/
lemma catsFold_sub : ∀ (l : List ContentItem) (acc : List String),
    acc ⊆ l.foldl (fun acc it =>
      if it.category ∈ acc then acc else acc ++ [it.category]) acc := by
  intro l
  induction l with
  | nil => intro acc; exact fun x h => h
  | cons it l ih =>
    intro acc
    simp only [List.foldl_cons]
    intro x hx
    refine ih _ ?_
    by_cases hmem : it.category ∈ acc
    · rwa [if_pos hmem]
    · rw [if_neg hmem]; exact List.mem_append_left _ hx

/-- Every item's category appears in the first-seen category fold. -/
lemma catsFold_mem : ∀ (l : List ContentItem) (acc : List String)
    (it : ContentItem), it ∈ l →
    it.category ∈ l.foldl (fun acc it =>
      if it.category ∈ acc then acc else acc ++ [it.category]) acc := by
  intro l
  induction l with
  | nil => intro acc it h; exact absurd h (by simp)
  | cons it0 l ih =>
    intro acc it hmem
    simp only [List.foldl_cons]
    rcases List.mem_cons.mp hmem with rfl | hm
    · refine catsFold_sub l _ ?_
      by_cases h0 : it.category ∈ acc
      · rwa [if_pos h0]
      · rw [if_neg h0]; exact List.mem_append_right _ (by simp)
    · exact ih _ it hm

/-- The first-seen category fold keeps its accumulator duplicate-free. -/
lemma catsFold_nodup : ∀ (l : List ContentItem) (acc : List String),
    acc.Nodup →
    (l.foldl (fun acc it =>
      if it.category ∈ acc then acc else acc ++ [it.category]) acc).Nodup := by
  intro l
  induction l with
  | nil => intro acc h; exact h
  | cons it l ih =>
    intro acc h
    simp only [List.foldl_cons]
    refine ih _ ?_
    by_cases hmem : it.category ∈ acc
    · rwa [if_pos hmem]
    · rw [if_neg hmem]
      simp [List.nodup_append, h, hmem]

lemma catsFirstSeen_nodup (index : List ContentItem) :
    (catsFirstSeen index).Nodup :=
  catsFold_nodup index [] List.nodup_nil

lemma mem_catsFirstSeen (index : List ContentItem) (it : ContentItem)
    (h : it ∈ index) : it.category ∈ catsFirstSeen index :=
  catsFold_mem index [] it h

lemma insertByCount_perm (index : List ContentItem) (c : String) :
    ∀ l : List String, (insertByCount index c l).Perm (c :: l) := by
  intro l
  induction l with
  | nil => exact List.Perm.refl _
  | cons d ds ih =>
    rw [insertByCount]
    by_cases hlt : catCount index d < catCount index c
    · rw [if_pos hlt]
    · rw [if_neg hlt]
      exact (ih.cons d).trans (List.Perm.swap c d ds)

lemma sortCats_perm (index : List ContentItem) :
    ∀ l : List String, (sortCats index l).Perm l := by
  intro l
  induction l with
  | nil => exact List.Perm.refl _
  | cons c cs ih =>
    rw [sortCats]
    exact (insertByCount_perm index c (sortCats index cs)).trans (ih.cons c)

lemma sortedCats_perm (index : List ContentItem) :
    (sortedCats index).Perm (catsFirstSeen index) :=
  sortCats_perm index (catsFirstSeen index)

/-- Regrouping a filtered list by a duplicate-free category list is a
permutation of filtering by membership in that list. -/
lemma flatMap_filter_perm (l : List ContentItem) (P : ContentItem → Bool) :
    ∀ cats : List String, cats.Nodup →
      (cats.flatMap (fun c => l.filter
        (fun it => decide (it.category = c) && P it))).Perm
        (l.filter (fun it => decide (it.category ∈ cats) && P it)) := by
  intro cats
  induction cats with
  | nil =>
    intro _
    simp
  | cons c cats ih =>
    intro hnd
    have hc : c ∉ cats := (List.nodup_cons.mp hnd).1
    have hnd2 : cats.Nodup := (List.nodup_cons.mp hnd).2
    rw [List.flatMap_cons]
    have hsplit := filter_perm_split l (fun it => decide (it.category = c))
      (fun it => decide (it.category ∈ c :: cats) && P it)
    have h1 : l.filter (fun it => decide (it.category = c) &&
        (decide (it.category ∈ c :: cats) && P it)) =
        l.filter (fun it => decide (it.category = c) && P it) := by
      refine List.filter_congr ?_
      intro it _
      by_cases hcat : it.category = c
      · simp [hcat]
      · simp [hcat]
    have h2 : l.filter (fun it => !(decide (it.category = c)) &&
        (decide (it.category ∈ c :: cats) && P it)) =
        l.filter (fun it => decide (it.category ∈ cats) && P it) := by
      refine List.filter_congr ?_
      intro it _
      by_cases hcat : it.category = c
      · simp [hcat, hc]
      · simp [hcat]
    rw [h1, h2] at hsplit
    exact ((ih hnd2).append_left _).trans hsplit.symm

/-- In the fallback stream every emitted item is an index item, the
stream is a permutation of the non-excluded index items, and therefore
the fallback output has distinct keys and the claimed length. -/
lemma fallback_branch_facts (index : List ContentItem)
    (recent : Finset String) (limit : Nat)
    (hnd : (index.map ContentItem.key).Nodup)
    (hwf : ∀ it ∈ index, it.key = it.category ++ "/" ++ it.file) :
    ((fallbackPosts index recent limit).map postKey).Nodup ∧
    (fallbackPosts index recent limit).length =
      min limit (index.countP (fun it => decide (it.key ∉ recent))) := by
  have hperm : ((sortedCats index).flatMap (fun c => index.filter
      (fun it => decide (it.category = c ∧ it.key ∉ recent)))).Perm
      (index.filter (fun it => decide (it.key ∉ recent))) := by
    have hconv : ∀ c : String, index.filter
        (fun it => decide (it.category = c ∧ it.key ∉ recent)) =
        index.filter (fun it => decide (it.category = c) &&
          decide (it.key ∉ recent)) := by
      intro c
      exact List.filter_congr (fun it _ => by
        rw [Bool.decide_and])
    have hstep : (sortedCats index).flatMap (fun c => index.filter
        (fun it => decide (it.category = c ∧ it.key ∉ recent))) =
        (sortedCats index).flatMap (fun c => index.filter
          (fun it => decide (it.category = c) && decide (it.key ∉ recent))) := by
      unfold List.flatMap
      exact congrArg List.flatten (List.map_congr_left (fun c _ => hconv c))
    rw [hstep]
    have hfin := flatMap_filter_perm index
      (fun it => decide (it.key ∉ recent)) (sortedCats index)
      ((sortedCats_perm index).nodup_iff.mpr (catsFirstSeen_nodup index))
    refine hfin.trans ?_
    rw [List.filter_congr (fun it hmem => ?_)]
    by_cases hcat : it.category ∈ sortedCats index
    · simp [hcat]
    · exfalso
      exact hcat ((sortedCats_perm index).mem_iff.mpr
        (mem_catsFirstSeen index it hmem))
  constructor
  · rw [fallbackPosts_eq]
    rw [List.map_map]
    have hsubindex : ∀ it ∈ ((sortedCats index).flatMap (fun c => index.filter
        (fun it => decide (it.category = c ∧ it.key ∉ recent)))).take limit,
        it ∈ index := by
      intro it hmem
      have h2 := hperm.mem_iff.mp (List.mem_of_mem_take hmem)
      exact List.mem_of_mem_filter h2
    have hmapkeys : (((sortedCats index).flatMap (fun c => index.filter
        (fun it => decide (it.category = c ∧ it.key ∉ recent)))).take limit).map
          (postKey ∘ fun it => mkPost it.category it.file) =
        (((sortedCats index).flatMap (fun c => index.filter
          (fun it => decide (it.category = c ∧ it.key ∉ recent)))).take limit).map
            ContentItem.key := by
      refine List.map_congr_left (fun it hmem => ?_)
      simp only [Function.comp_apply, postKey_mkPost]
      exact (hwf it (hsubindex it hmem)).symm
    rw [hmapkeys]
    refine List.Nodup.sublist (List.Sublist.map _ (List.take_sublist _ _)) ?_
    exact (hperm.map ContentItem.key).nodup_iff.mpr
      (hnd.sublist (List.Sublist.map _ (List.filter_sublist _)))
  · rw [fallbackPosts_eq, List.length_map, List.length_take,
      hperm.length_eq, List.countP_eq_length_filter]

/-- The scored candidate list carries exactly the keys of the
non-excluded index items, and every candidate records a real index item
together with its own key. -/
lemma scoreItems_facts (index : List ContentItem) (profile : List ℝ)
    (recent : Finset String) :
    ((scoreItems index profile recent).map Scored.key) =
      ((index.filter (fun it => decide (it.key ∉ recent))).map
        ContentItem.key) ∧
    (∀ s ∈ scoreItems index profile recent,
      s.item ∈ index ∧ s.key = s.item.key) := by
  have haux : ∀ (l : List ContentItem) (n : Nat),
      (((l.enumFrom n).filterMap (scoreF profile recent)).map Scored.key) =
        ((l.filter (fun it => decide (it.key ∉ recent))).map ContentItem.key) ∧
      (∀ s ∈ (l.enumFrom n).filterMap (scoreF profile recent),
        s.item ∈ l ∧ s.key = s.item.key) := by
    intro l
    induction l with
    | nil => intro n; exact ⟨rfl, by simp⟩
    | cons it l ih =>
      intro n
      rw [List.enumFrom_cons]
      by_cases hrec : it.key ∈ recent
      · have hf : scoreF profile recent (n, it) = none := by
          simp [scoreF, hrec]
        constructor
        · rw [List.filterMap_cons_none hf,
            List.filter_cons_of_neg (by simp [hrec])]
          exact (ih (n + 1)).1
        · intro s hs
          rw [List.filterMap_cons_none hf] at hs
          have hfact := (ih (n + 1)).2 s hs
          exact ⟨List.mem_cons_of_mem it hfact.1, hfact.2⟩
      · have hf : scoreF profile recent (n, it) =
            some (⟨n, it.key, cosSim profile it.feature, it⟩ : Scored) := by
          simp [scoreF, hrec]
        constructor
        · rw [List.filterMap_cons_some hf,
            List.filter_cons_of_pos (by simp [hrec])]
          simp only [List.map_cons]
          rw [(ih (n + 1)).1]
        · intro s hs
          rw [List.filterMap_cons_some hf] at hs
          rcases List.mem_cons.mp hs with rfl | hmem
          · exact ⟨List.mem_cons_self it l, rfl⟩
          · have hfact := (ih (n + 1)).2 s hmem
            exact ⟨List.mem_cons_of_mem it hfact.1, hfact.2⟩
  exact haux index 0

lemma insertBySim_perm (x : Scored) :
    ∀ l : List Scored, (insertBySim x l).Perm (x :: l) := by
  intro l
  induction l with
  | nil => exact List.Perm.refl _
  | cons y ys ih =>
    rw [insertBySim]
    by_cases hlt : y.sim < x.sim
    · rw [if_pos hlt]
    · rw [if_neg hlt]
      exact (ih.cons y).trans (List.Perm.swap x y ys)

lemma sortBySim_perm : ∀ l : List Scored, (sortBySim l).Perm l := by
  intro l
  induction l with
  | nil => exact List.Perm.refl _
  | cons x xs ih =>
    rw [sortBySim]
    exact (insertBySim_perm x (sortBySim xs)).trans (ih.cons x)

/-- Once the scan holds a candidate it never returns `none`. -/
lemma scanBestAux_some_of_some (index : List ContentItem)
    (selected : List Scored) (selKeys : Finset String) :
    ∀ (l : List Scored) (p : Nat) (b : Option (Nat × ℝ)), b.isSome →
      (scanBestAux index selected selKeys l p b).isSome := by
  intro l
  induction l with
  | nil => intro p b hb; exact hb
  | cons cand rest ih =>
    intro p b hb
    rw [scanBestAux]
    by_cases hsel : cand.key ∈ selKeys
    · rw [if_pos hsel]; exact ih _ _ hb
    · rw [if_neg hsel]
      cases b with
      | none => exact absurd hb (by simp)
      | some pb =>
        simp only
        by_cases hlt : pb.2 < mmrScore index cand selected
        · rw [if_pos hlt]; exact ih _ _ (by simp)
        · rw [if_neg hlt]; exact ih _ _ (by simp)

/-- The scan finds a candidate whenever an eligible one exists. -/
lemma scanBestAux_isSome (index : List ContentItem)
    (selected : List Scored) (selKeys : Finset String) :
    ∀ (l : List Scored) (p : Nat) (b : Option (Nat × ℝ)),
      (∃ cand ∈ l, cand.key ∉ selKeys) →
      (scanBestAux index selected selKeys l p b).isSome := by
  intro l
  induction l with
  | nil => intro p b hex; rcases hex with ⟨c, hc, _⟩; exact absurd hc (by simp)
  | cons cand rest ih =>
    intro p b hex
    rw [scanBestAux]
    by_cases hsel : cand.key ∈ selKeys
    · rw [if_pos hsel]
      rcases hex with ⟨c, hc, hck⟩
      rcases List.mem_cons.mp hc with rfl | hmem
      · exact absurd hsel hck
      · exact ih _ _ ⟨c, hmem, hck⟩
    · rw [if_neg hsel]
      cases b with
      | none => exact scanBestAux_some_of_some index selected selKeys rest _ _ (by simp)
      | some pb =>
        simp only
        by_cases hlt : pb.2 < mmrScore index cand selected
        · rw [if_pos hlt]
          exact scanBestAux_some_of_some index selected selKeys rest _ _ (by simp)
        · rw [if_neg hlt]
          exact scanBestAux_some_of_some index selected selKeys rest _ _ (by simp)

/-- The scan's answer stays below the scanned range. -/
lemma scanBestAux_lt (index : List ContentItem) (selected : List Scored)
    (selKeys : Finset String) :
    ∀ (l : List Scored) (p : Nat) (b : Option (Nat × ℝ)) (q : Nat) (s : ℝ),
      (∀ q0 s0, b = some (q0, s0) → q0 < p) →
      scanBestAux index selected selKeys l p b = some (q, s) →
      q < p + l.length := by
  intro l
  induction l with
  | nil =>
    intro p b q s hb hr
    simpa using hb q s hr
  | cons cand rest ih =>
    intro p b q s hb hr
    rw [scanBestAux] at hr
    by_cases hsel : cand.key ∈ selKeys
    · rw [if_pos hsel] at hr
      have := ih (p + 1) b q s (fun q0 s0 h0 => lt_trans (hb q0 s0 h0) (by omega)) hr
      simpa [Nat.add_assoc] using by omega
    · rw [if_neg hsel] at hr
      cases b with
      | none =>
        simp only at hr
        have := ih (p + 1) _ q s (fun q0 s0 h0 => by
          rcases Prod.mk.injEq .. ▸ Option.some_inj.mp h0 with ⟨h1, _⟩
          omega) hr
        simp only [List.length_cons]
        omega
      | some pb =>
        simp only at hr
        by_cases hlt : pb.2 < mmrScore index cand selected
        · rw [if_pos hlt] at hr
          have := ih (p + 1) _ q s (fun q0 s0 h0 => by
            rcases Prod.mk.injEq .. ▸ Option.some_inj.mp h0 with ⟨h1, _⟩
            omega) hr
          simp only [List.length_cons]
          omega
        · rw [if_neg hlt] at hr
          have := ih (p + 1) _ q s (fun q0 s0 h0 => by
            have h1 := hb q0 s0 (by rw [h0])
            omega) hr
          simp only [List.length_cons]
          omega

/-- When the scored list is non-empty and none of its keys were already
selected, one MMR round picks a position inside the list. -/
lemma scanBest_some (index : List ContentItem) (selected : List Scored)
    (selKeys : Finset String) (scored : List Scored) (hne : scored ≠ [])
    (hkeys : ∀ s ∈ scored, s.key ∉ selKeys) :
    ∃ p, scanBest index selected selKeys scored = some p ∧
      p < scored.length := by
  have hsome : (scanBestAux index selected selKeys scored 0 none).isSome := by
    refine scanBestAux_isSome index selected selKeys scored 0 none ?_
    cases scored with
    | nil => exact absurd rfl hne
    | cons c rest => exact ⟨c, by simp, hkeys c (by simp)⟩
  rcases Option.isSome_iff_exists.mp hsome with ⟨⟨q, sc⟩, hq⟩
  refine ⟨q, ?_, ?_⟩
  · rw [scanBest, hq]; rfl
  · simpa using scanBestAux_lt index selected selKeys scored 0 none q sc
      (by simp) hq

/-- Removing the element at position `p` from a list with duplicate-free
images removes the only element with the chosen image. -/
lemma map_ne_of_mem_eraseIdx {α β : Type} [Inhabited α] (l : List α)
    (f : α → β) (p : Nat) (hp : p < l.length)
    (hnd : (l.map f).Nodup) (x : α) (hx : x ∈ l.eraseIdx p) :
    f x ≠ f (l.getD p default) := by
  have hdecomp : l = l.take p ++ l.getD p default :: l.drop (p + 1) := by
    conv_lhs => rw [← List.take_append_drop p l]
    rw [List.drop_eq_getElem_cons hp, List.getD_eq_getElem?_getD,
      List.getElem?_eq_getElem hp]
    rfl
  have hmid : ((l.take p).map f ++ f (l.getD p default) ::
      (l.drop (p + 1)).map f).Nodup := by
    rw [← List.map_cons, ← List.map_append, ← hdecomp]
    exact hnd
  have hnotmem := (List.nodup_cons.mp (List.nodup_middle.mp hmid)).1
  rw [List.eraseIdx_eq_take_drop_succ] at hx
  intro heq
  apply hnotmem
  rw [← heq, ← List.map_append]
  exact List.mem_map_of_mem f hx

/-- The MMR selection loop: with enough fuel, duplicate-free candidate
keys disjoint from the already-selected keys, it returns a
duplicate-free selection of exactly `min` length, drawn from the
candidates and the prior selection. -/
lemma mmrLoop_facts (index : List ContentItem) (limit : Nat) :
    ∀ (fuel : Nat) (scored selected : List Scored) (selKeys : Finset String),
      scored.length ≤ fuel →
      ((scored.map Scored.key).Nodup) →
      (∀ s ∈ scored, s.key ∉ selKeys) →
      ((selected.map Scored.key).Nodup) →
      (∀ s ∈ selected, s.key ∈ selKeys) →
      (((mmrLoop index limit fuel scored selected selKeys).map
        Scored.key).Nodup) ∧
      (mmrLoop index limit fuel scored selected selKeys).length =
        selected.length + min (limit - selected.length) scored.length ∧
      (∀ s ∈ mmrLoop index limit fuel scored selected selKeys,
        s ∈ selected ∨ s ∈ scored) := by
  intro fuel
  induction fuel with
  | zero =>
    intro scored selected selKeys hfuel hsnd hdisj hselnd hselkeys
    have hscored : scored = [] := List.length_eq_zero.mp (by omega)
    subst hscored
    exact ⟨hselnd, by simp [mmrLoop], fun s hs => Or.inl hs⟩
  | succ fuel ih =>
    intro scored selected selKeys hfuel hsnd hdisj hselnd hselkeys
    rw [mmrLoop]
    by_cases hstop : limit ≤ selected.length ∨ scored = []
    · rw [if_pos hstop]
      refine ⟨hselnd, ?_, fun s hs => Or.inl hs⟩
      rcases hstop with hstop | hstop
      · have : limit - selected.length = 0 := by omega
        rw [this]
        simp
      · subst hstop
        simp
    · rw [if_neg hstop]
      push_neg at hstop
      obtain ⟨hsel_lt, hne⟩ := hstop
      rcases scanBest_some index selected selKeys scored hne hdisj with
        ⟨p, hscan, hplt⟩
      rw [hscan]
      simp only
      set chosen := scored.getD p default with hchosen
      have hchosen_mem : chosen ∈ scored := getD_mem scored p default hplt
      have hchosen_notsel : chosen.key ∉ selKeys := hdisj chosen hchosen_mem
      have hlen_erase : (scored.eraseIdx p).length = scored.length - 1 := by
        rw [List.length_eraseIdx, if_pos hplt]
      have herase_sub : (scored.eraseIdx p).Sublist scored :=
        List.eraseIdx_sublist scored p
      have hrec := ih (scored.eraseIdx p) (selected ++ [chosen])
        (insert chosen.key selKeys)
        (by omega)
        ((List.Sublist.map Scored.key herase_sub).nodup hsnd)
        (fun s hs => by
          have hne2 : s.key ≠ chosen.key :=
            map_ne_of_mem_eraseIdx scored Scored.key p hplt hsnd s hs
          have hnot : s.key ∉ selKeys := hdisj s (herase_sub.mem hs)
          simp [hne2, hnot])
        (by
          have hchkey : chosen.key ∉ selected.map Scored.key := by
            intro hmem
            rcases List.mem_map.mp hmem with ⟨s, hs, hkey⟩
            exact hchosen_notsel (hkey ▸ hselkeys s hs)
          simp [List.nodup_append, hselnd, hchkey])
        (fun s hs => by
          rcases List.mem_append.mp hs with hmem | hmem
          · exact Finset.mem_insert_of_mem (hselkeys s hmem)
          · rw [List.mem_singleton.mp hmem]
            exact Finset.mem_insert_self _ _)
      refine ⟨hrec.1, ?_, ?_⟩
      · rw [hrec.2.1]
        simp only [List.length_append, List.length_singleton]
        omega
      · intro s hs
        rcases hrec.2.2 s hs with hmem | hmem
        · rcases List.mem_append.mp hmem with h2 | h2
          · exact Or.inl h2
          · rw [List.mem_singleton.mp h2]
            exact Or.inr hchosen_mem
        · exact Or.inr (herase_sub.mem hmem)

/-- The profile-driven branch of `recommend` (for any profile vector)
returns posts with duplicate-free keys and length
`min limit |catalog without excluded|`. -/
lemma profile_branch_facts (index : List ContentItem) (recent : Finset String)
    (limit : Nat) (profile : List ℝ)
    (hnd : (index.map ContentItem.key).Nodup)
    (hwf : ∀ it ∈ index, it.key = it.category ++ "/" ++ it.file) :
    (((((mmrLoop index limit (sortBySim (scoreItems index profile recent)).length
        (sortBySim (scoreItems index profile recent)) [] ∅).map
          Scored.item).take limit).map
            (fun it => mkPost it.category it.file)).map postKey).Nodup ∧
    ((((mmrLoop index limit (sortBySim (scoreItems index profile recent)).length
        (sortBySim (scoreItems index profile recent)) [] ∅).map
          Scored.item).take limit).map
            (fun it => mkPost it.category it.file)).length =
      min limit (index.countP (fun it => decide (it.key ∉ recent))) := by
  have hS := scoreItems_facts index profile recent
  set scored := scoreItems index profile recent with hscored
  set sorted := sortBySim scored with hsorted
  have hperm : sorted.Perm scored := sortBySim_perm scored
  have hsnd : (scored.map Scored.key).Nodup := by
    rw [hS.1]
    exact hnd.sublist (List.Sublist.map _ (List.filter_sublist _))
  have hsortnd : (sorted.map Scored.key).Nodup :=
    (hperm.map Scored.key).nodup_iff.mpr hsnd
  have hsortfacts : ∀ s ∈ sorted, s.item ∈ index ∧ s.key = s.item.key :=
    fun s hs => hS.2 s (hperm.mem_iff.mp hs)
  have hmmr := mmrLoop_facts index limit sorted.length sorted [] ∅
    (le_refl _) hsortnd (fun s _ => Finset.not_mem_empty _)
    List.nodup_nil (by simp)
  set selected := mmrLoop index limit sorted.length sorted [] ∅ with hselected
  have hselfacts : ∀ s ∈ selected, s.item ∈ index ∧ s.key = s.item.key := by
    intro s hs
    rcases hmmr.2.2 s hs with hmem | hmem
    · exact absurd hmem (by simp)
    · exact hsortfacts s hmem
  have hsellen : selected.length = min limit scored.length := by
    rw [hmmr.2.1, hperm.length_eq]
    simp
  have hscoredlen : scored.length =
      index.countP (fun it => decide (it.key ∉ recent)) := by
    have := congrArg List.length hS.1
    simpa [List.countP_eq_length_filter] using this
  constructor
  · rw [List.map_map]
    rw [show (selected.map Scored.item).take limit =
        (selected.take limit).map Scored.item from
      (List.map_take Scored.item selected limit).symm]
    rw [List.map_map]
    have hcongr : (selected.take limit).map
        ((postKey ∘ fun it => mkPost it.category it.file) ∘ Scored.item) =
        (selected.take limit).map Scored.key := by
      refine List.map_congr_left (fun s hs => ?_)
      have hfact := hselfacts s (List.mem_of_mem_take hs)
      simp only [Function.comp_apply, postKey_mkPost]
      rw [← hwf s.item hfact.1]
      exact hfact.2.symm
    rw [hcongr, List.map_take]
    exact hmmr.1.sublist (List.take_sublist _ _)
  · rw [List.length_map, List.length_take, List.length_map, hsellen,
      hscoredlen]
    omega

/-- C3: on an index with duplicate-free keys (the data model's
key→ordinal lookup presupposes this; `buildIndex` over a directory
snapshot produces it), `recommend` returns no key twice and exactly
`min limit |catalog minus excluded|` posts, in both the profile-driven
MMR branch and the popularity-fallback branch. -/
theorem recommend_output_shape (index : List ContentItem)
    (behavior : List (String × BehaviorEntry)) (recent : Finset String)
    (limit : Nat)
    (hnd : (index.map ContentItem.key).Nodup)
    (hwf : ∀ it ∈ index, it.key = it.category ++ "/" ++ it.file) :
    ((recommend index behavior recent limit).map postKey).Nodup ∧
    (recommend index behavior recent limit).length =
      min limit (index.countP (fun it => decide (it.key ∉ recent))) := by
  by_cases huk : (behavior.map Prod.fst).filter
      (fun k => (keyToIndex index k).isSome) = []
  · have hbranch : recommend index behavior recent limit =
        fallbackPosts index recent limit := by
      unfold recommend
      rw [if_pos huk]
    rw [hbranch]
    exact fallback_branch_facts index recent limit hnd hwf
  · have hfacts := profile_branch_facts index recent limit
      (buildProfile index behavior (index.headD default).feature.length
        ((behavior.map Prod.fst).filter (fun k => (keyToIndex index k).isSome)))
      hnd hwf
    unfold recommend
    rw [if_neg huk]
    exact hfacts

/-- Witness for C3 at a concrete three-item catalog with a non-empty
behavior map (profile branch) and with an empty one (fallback branch). -/
theorem recommend_output_shape_witness :
    (([(⟨"A/a1", "A", "a1", []⟩ : ContentItem), ⟨"A/a2", "A", "a2", []⟩,
        ⟨"B/b1", "B", "b1", []⟩].map ContentItem.key).Nodup) ∧
    (∀ it ∈ [(⟨"A/a1", "A", "a1", []⟩ : ContentItem), ⟨"A/a2", "A", "a2", []⟩,
        ⟨"B/b1", "B", "b1", []⟩],
      it.key = it.category ++ "/" ++ it.file) ∧
    (((recommend [⟨"A/a1", "A", "a1", []⟩, ⟨"A/a2", "A", "a2", []⟩,
        ⟨"B/b1", "B", "b1", []⟩] [("A/a1", ⟨10, 1⟩)] ∅ 2).map postKey).Nodup ∧
     (recommend [⟨"A/a1", "A", "a1", []⟩, ⟨"A/a2", "A", "a2", []⟩,
        ⟨"B/b1", "B", "b1", []⟩] [("A/a1", ⟨10, 1⟩)] ∅ 2).length =
       min 2 ([(⟨"A/a1", "A", "a1", []⟩ : ContentItem), ⟨"A/a2", "A", "a2", []⟩,
         ⟨"B/b1", "B", "b1", []⟩].countP (fun it => decide (it.key ∉ (∅ : Finset String))))) :=
  ⟨by decide, by decide,
   recommend_output_shape
     [⟨"A/a1", "A", "a1", []⟩, ⟨"A/a2", "A", "a2", []⟩, ⟨"B/b1", "B", "b1", []⟩]
     [("A/a1", ⟨10, 1⟩)] ∅ 2 (by decide) (by decide)⟩

/-- C9: feature synthesis is deterministic — the pipeline is a pure
function of `(key, filename)` (two evaluations agree), it is exactly the
composition of the hashed bag-of-words text vector of size 64 with the
two seeded 8-element placeholder vectors for `key ++ ":a"` and
`key ++ ":v"`, and it produces an 80-dimensional vector, with no
dependence on any ambient randomness (no other argument exists for it to
read). -/
theorem synthesize_deterministic (key file : String) :
    synthesize key file = synthesize key file ∧
    synthesize key file =
      textVector file 64 ++ deterministicRandomVector (key ++ ":a") 8 ++
        deterministicRandomVector (key ++ ":v") 8 ∧
    (synthesize key file).length = 80 :=
  ⟨rfl, rfl, synthesize_length key file⟩

/-- C8: every feature vector stored by the index build has Euclidean
norm 1, except that a vector whose pre-normalization raw synthesis is
exactly the zero vector is stored as the zero vector. -/
theorem buildIndex_feature_norm (fm : List (String × List String))
    (it : ContentItem) (hmem : it ∈ buildIndexItems fm) :
    (synthesize it.key it.file ≠ List.replicate 80 0 →
      Real.sqrt (sqFoldR it.feature) = 1) ∧
    (synthesize it.key it.file = List.replicate 80 0 →
      it.feature = List.replicate 80 (0 : ℝ)) := by
  rcases mem_buildIndexItems fm it hmem with ⟨cat, file, rfl⟩
  simp only [buildItem_key, buildItem_file, buildItem_feature]
  constructor
  · intro hne
    have hq : sqFoldQ (synthesize (cat ++ "/" ++ file) file) ≠ 0 := by
      intro h0
      apply hne
      have hrep := sqFoldQ_eq_zero _ h0
      rwa [synthesize_length] at hrep
    exact normalize_norm_one _ hq
  · intro hzero
    rw [hzero, normalize_zero _ (sqFoldQ_replicate_zero 80)]
    simp

set_option maxRecDepth 100000 in
/-- Witness for C8 at a concrete catalog: the item built for category
`"a"` and file `"b.mp4"` has a non-zero raw vector and unit norm. -/
theorem buildIndex_feature_norm_witness :
    buildItem "a" "b.mp4" ∈ buildIndexItems [("a", ["b.mp4"])] ∧
    synthesize (buildItem "a" "b.mp4").key (buildItem "a" "b.mp4").file ≠
      List.replicate 80 0 ∧
    Real.sqrt (sqFoldR (buildItem "a" "b.mp4").feature) = 1 :=
  ⟨by simp [buildIndexItems],
   by with_unfolding_all decide,
   (buildIndex_feature_norm [("a", ["b.mp4"])] (buildItem "a" "b.mp4")
     (by simp [buildIndexItems])).1 (by with_unfolding_all decide)⟩

end DeskTok
